import Mathlib

/-!
Verification of the class-family resolver and driver of bump-pydantic.

The resolver (`ClassDefVisitor` in `bump_pydantic/codemods/class_def_visitor.py`)
is embedded shallowly: fully-qualified names are `String`s, Python sets are
lists with membership semantics (insertion order, no duplicates introduced by
the operations we model), and the `pending` dict is an association list.
The recursive `_setIsModel` / `_setIsNotModel` cascades are rendered with an
explicit worklist that performs the same depth-first traversal in the same
order as the Python recursion.
-/

namespace BumpPydantic

/-- One entry of the `pending` dict (`PendingClass` dataclass):
`pending_bases` are the bases of this class whose status is unknown,
`subclasses` are the classes waiting on this class. -/
structure PendingClass where
  pending_bases : List String
  subclasses : List String
deriving DecidableEq

/-- The resolver state held in the codemod scratch context:
`models` (`base_model_cls`), `non_models` (`no_base_model_cls`) and
`pending` (`unknown_cls`, a dict keyed by fully-qualified name). -/
structure VisitorState where
  models : List String
  non_models : List String
  pending : List (String × PendingClass)
deriving DecidableEq

/-- Python `set.add`: insert if absent (insertion order at the end). -/
def addS (x : String) (l : List String) : List String :=
  if x ∈ l then l else l ++ [x]

/-- Lookup in the `pending` dict (first matching key). -/
def lookupP (k : String) : List (String × PendingClass) → Option PendingClass
  | [] => none
  | (k', v) :: rest => if k' = k then some v else lookupP k rest

/-- `dict.pop`: remove the (first) entry with the given key. -/
def eraseP (k : String) : List (String × PendingClass) → List (String × PendingClass)
  | [] => []
  | (k', v) :: rest => if k' = k then rest else (k', v) :: eraseP k rest

/-- In-place mutation of the `pending_bases` of an existing entry
(`sub_info.pending_bases.discard(...)` / assignment). Touches every entry
with the key; the keys are without duplicates in every reachable state. -/
def updPB (k : String) (pb : List String) (l : List (String × PendingClass)) :
    List (String × PendingClass) :=
  l.map (fun e => if e.1 = k then (e.1, ⟨pb, e.2.subclasses⟩) else e)

/-- `self.pending[fqn].pending_bases = {...}` on the defaultdict: update the
entry if present (keeping its subclasses), otherwise create it. -/
def pendSetBases (k : String) (pb : List String) (l : List (String × PendingClass)) :
    List (String × PendingClass) :=
  if (lookupP k l).isSome then updPB k pb l else l ++ [(k, ⟨pb, []⟩)]

/-- `self.pending[base].subclasses.add(n)` on the defaultdict. -/
def pendAddSubclass (k : String) (n : String) (l : List (String × PendingClass)) :
    List (String × PendingClass) :=
  match lookupP k l with
  | some e => l.map (fun p => if p.1 = k then (p.1, ⟨e.pending_bases, addS n e.subclasses⟩) else p)
  | none => l ++ [(k, ⟨[], [n]⟩)]

/-- `_setIsModel`, rendered with an explicit worklist of names still to be
promoted.  Processing a name adds it to `models`; if it has a pending entry,
the entry is popped and its subclasses are pushed, giving the same
depth-first promotion order as the Python recursion. -/
def setIsModelGo : VisitorState → List String → VisitorState
  | S, [] => S
  | S, n :: rest =>
    match h : lookupP n S.pending with
    | none => setIsModelGo { S with models := addS n S.models } rest
    | some e =>
      setIsModelGo
        { models := addS n S.models, non_models := S.non_models,
          pending := eraseP n S.pending }
        (e.subclasses ++ rest)
termination_by S stack => (S.pending.length, stack.length)
decreasing_by
  · exact Prod.Lex.right _ (Nat.lt_succ_self _)
  · refine Prod.Lex.left _ _ ?_
    have key : ∀ (l : List (String × PendingClass)),
        (lookupP n l).isSome → (eraseP n l).length < l.length := by
      intro l hl
      induction l with
      | nil => simp [lookupP] at hl
      | cons hd tl ih =>
        cases hd with
        | mk k v =>
          by_cases hk : k = n
          · simp [eraseP, hk]
          · simp only [lookupP, hk, if_false] at hl
            simp only [eraseP, hk, if_false, List.length_cons]
            exact Nat.succ_lt_succ (ih hl)
    exact key _ (by rw [h]; rfl)

/-- `_setIsModel(fqn)` itself. -/
def setIsModel (n : String) (S : VisitorState) : VisitorState :=
  setIsModelGo S [n]

/-- `_setIsNotModel`'s propagation loop, rendered with an explicit stack of
frames `(parent, remaining subclasses)`.  For each subclass of a popped
parent: if it still has a pending entry, the parent is discarded from its
`pending_bases`; if they become empty the subclass is itself marked
not-a-model (popped, its subclasses pushed as a new frame), exactly the
Python recursion's depth-first order. -/
def setIsNotModelGo : VisitorState → List (String × List String) → VisitorState
  | S, [] => S
  | S, (_, []) :: frames => setIsNotModelGo S frames
  | S, (p, sub :: rest) :: frames =>
    match h : lookupP sub S.pending with
    | none => setIsNotModelGo S ((p, rest) :: frames)
    | some e =>
      let pb' := e.pending_bases.filter (fun b => b ≠ p)
      if pb' = [] then
        setIsNotModelGo
          { models := S.models, non_models := addS sub S.non_models,
            pending := eraseP sub S.pending }
          ((sub, e.subclasses) :: (p, rest) :: frames)
      else
        setIsNotModelGo { S with pending := updPB sub pb' S.pending }
          ((p, rest) :: frames)
termination_by S frames =>
  (S.pending.length, frames.foldr (fun f acc => f.2.length + 1 + acc) 0)
decreasing_by
  · exact Prod.Lex.right _ (by simp only [List.foldr_cons, List.length_nil]; omega)
  · exact Prod.Lex.right _ (by simp only [List.foldr_cons, List.length_cons]; omega)
  · refine Prod.Lex.left _ _ ?_
    have key : ∀ (l : List (String × PendingClass)),
        (lookupP sub l).isSome → (eraseP sub l).length < l.length := by
      intro l hl
      induction l with
      | nil => simp [lookupP] at hl
      | cons hd tl ih =>
        cases hd with
        | mk k v =>
          by_cases hk : k = sub
          · simp [eraseP, hk]
          · simp only [lookupP, hk, if_false] at hl
            simp only [eraseP, hk, if_false, List.length_cons]
            exact Nat.succ_lt_succ (ih hl)
    exact key _ (by rw [h]; rfl)
  · have hlen : (updPB sub (e.pending_bases.filter (fun b => b ≠ p)) S.pending).length
        = S.pending.length := by simp [updPB]
    rw [hlen]
    exact Prod.Lex.right _ (by simp only [List.foldr_cons, List.length_cons]; omega)

/-- `_setIsNotModel(fqn)` itself: add to `non_models`; if there is a pending
entry, pop it and propagate over its subclasses. -/
def setIsNotModel (n : String) (S : VisitorState) : VisitorState :=
  let S1 : VisitorState := { S with non_models := addS n S.non_models }
  match lookupP n S.pending with
  | none => S1
  | some e =>
    setIsNotModelGo { S1 with pending := eraseP n S1.pending } [(n, e.subclasses)]

/-- `visit_ClassDef` for a class with resolved fully-qualified name `n` and
resolved base names `bs` (the concatenation of the FQN sets of the base
expressions; when a base already known as a model is found the Python loop
only skips the rest of that one base's FQN set, and the collected unknown
bases are unused in that branch, so the flattened list gives the same
result). -/
def observeClass (S : VisitorState) (n : String) (bs : List String) : VisitorState :=
  if bs = [] then setIsNotModel n S
  else
    let hasModelBase := bs.any (fun b => decide (b ∈ S.models))
    let unknown := bs.filter (fun b => decide (b ∉ S.models) && decide (b ∉ S.non_models))
    if hasModelBase then setIsModel n S
    else if unknown = [] then setIsNotModel n S
    else
      let S1 : VisitorState := { S with pending := pendSetBases n unknown.dedup S.pending }
      unknown.foldl (fun acc b => { acc with pending := pendAddSubclass b n acc.pending }) S1

/-- `visit_ClassDef` including the guard on the fully-qualified-name metadata:
with an empty FQN set the visit returns immediately. -/
def visitClassDef (S : VisitorState) (fqnSet : List String) (bs : List String) : VisitorState :=
  match fqnSet with
  | [] => S
  | n :: _ => observeClass S n bs

/-- The seeded root names of the "pydantic model" category. -/
def seedList : List String := ["pydantic.BaseModel", "pydantic.main.BaseModel"]

/-- The initial resolver state. -/
def initState : VisitorState := ⟨seedList, [], []⟩

/-- One class declaration: its fully-qualified name and resolved base names. -/
abbrev Decl := String × List String

/-- Observing a list of class declarations in order. -/
def runObservations (S : VisitorState) (ds : List Decl) : VisitorState :=
  ds.foldl (fun acc d => observeClass acc d.1 d.2) S

/-! Semantic characterisation of the resolver, used to state and prove the
order-independence of the fixpoint.  `Mem O n` says that, once the whole
declaration list `O` has been observed, `n` must be a known member:
it is a seeded root, or it is declared with some base that is a member.
`NonMem O n` says `n` must be a known non-member: it is declared and every
declared base is a non-member that is not a member (membership is checked
first by `visit_ClassDef`, so it wins). -/

/-- Semantic membership in the model family determined by declarations `O`. -/
inductive Mem (O : List Decl) : String → Prop
  | seed {n : String} : n ∈ seedList → Mem O n
  | base {n : String} {bs : List String} {b : String} :
      (n, bs) ∈ O → b ∈ bs → Mem O b → Mem O n

/-- Semantic non-membership determined by declarations `O`. -/
inductive NonMem (O : List Decl) : String → Prop
  | intro {n : String} {bs : List String} :
      (n, bs) ∈ O → (∀ b ∈ bs, ¬ Mem O b) → (∀ b ∈ bs, NonMem O b) → NonMem O n

/-- Names newly promotable to member when declaration `(m, bs)` arrives with a
member base: `m` itself and, transitively, classes declared in `O` with a base
already reached and not previously a member. -/
inductive ReachNew (O : List Decl) (m : String) : String → Prop
  | root : ReachNew O m m
  | step {b x : String} {bsx : List String} :
      ReachNew O m b → (x, bsx) ∈ O → b ∈ bsx → ¬ Mem O x → ReachNew O m x

/-- Reachability through `pending_bases` edges of the pending map: `n` waits,
possibly transitively, on `root`. -/
inductive PbReach (S : VisitorState) (root : String) : String → Prop
  | refl : PbReach S root root
  | step {k n : String} {e : PendingClass} :
      PbReach S root k → lookupP n S.pending = some e → k ∈ e.pending_bases →
      PbReach S root n

/-- The data-model invariant tying a resolver state to the list of
declarations observed so far. -/
structure Inv (O : List Decl) (S : VisitorState) : Prop where
  onodup : (O.map Prod.fst).Nodup
  knodup : (S.pending.map Prod.fst).Nodup
  models_iff : ∀ n, n ∈ S.models ↔ Mem O n
  non_iff : ∀ n, n ∈ S.non_models ↔ NonMem O n
  key_complete : ∀ n bs, (n, bs) ∈ O → ¬ NonMem O n → (∀ b ∈ bs, ¬ Mem O b) →
      (lookupP n S.pending).isSome
  pb_iff : ∀ n e, lookupP n S.pending = some e →
      ∀ b, b ∈ e.pending_bases ↔
        ∃ bs, (n, bs) ∈ O ∧ b ∈ bs ∧ ¬ Mem O b ∧ ¬ NonMem O b
  pb_nonempty_iff : ∀ n e, lookupP n S.pending = some e →
      (e.pending_bases ≠ [] ↔ n ∈ O.map Prod.fst)
  subs_lower : ∀ n e b, lookupP n S.pending = some e → b ∈ e.pending_bases →
      ∃ eb, lookupP b S.pending = some eb ∧ n ∈ eb.subclasses
  subs_upper : ∀ b eb x, lookupP b S.pending = some eb → x ∈ eb.subclasses →
      ∃ bs, (x, bs) ∈ O ∧ b ∈ bs
  key_decl_or_not_mem : ∀ n e, lookupP n S.pending = some e →
      n ∈ O.map Prod.fst ∨ ¬ Mem O n
  key_bases_not_mem : ∀ n e bs, lookupP n S.pending = some e → (n, bs) ∈ O →
      ∀ b ∈ bs, ¬ Mem O b

/-- Intermediate-state invariant of the `_setIsNotModel` propagation: `T` and
the frame stack `F` of the worklist, relative to the state `S` at the start
of the call (satisfying `Inv O S`) and the arriving declaration `(m, bs)`. -/
structure NotCtx (O : List Decl) (S : VisitorState) (m : String) (bs : List String)
    (T : VisitorState) (F : List (String × List String)) : Prop where
  models_eq : T.models = S.models
  non_sound : ∀ n ∈ T.non_models, NonMem (O ++ [(m, bs)]) n
  non_super : ∀ n ∈ S.non_models, n ∈ T.non_models
  m_marked : m ∈ T.non_models
  coup : ∀ x e', lookupP x T.pending = some e' →
      ∃ e, lookupP x S.pending = some e ∧ e'.subclasses = e.subclasses ∧
        (∀ b ∈ e'.pending_bases, b ∈ e.pending_bases) ∧
        (∀ b ∈ e.pending_bases, b ∉ e'.pending_bases → b ∈ T.non_models)
  keys_sub : ∀ x, lookupP x S.pending = none → lookupP x T.pending = none
  knodupT : (T.pending.map Prod.fst).Nodup
  frames_ok : ∀ p l, (p, l) ∈ F → p ∈ T.non_models ∧ lookupP p T.pending = none ∧
      ∀ x ∈ l, ∃ ep, lookupP p S.pending = some ep ∧ x ∈ ep.subclasses
  edge : ∀ x ex b, lookupP x T.pending = some ex → b ∈ ex.pending_bases →
      (∃ eb, lookupP b T.pending = some eb ∧ x ∈ eb.subclasses) ∨
      (∃ l, (b, l) ∈ F ∧ x ∈ l)
  empty_pb : ∀ x ex, lookupP x T.pending = some ex → ex.pending_bases = [] →
      ∀ e, lookupP x S.pending = some e → e.pending_bases = []
  pops_marked : ∀ x, (lookupP x S.pending).isSome → lookupP x T.pending = none →
      x ∈ T.non_models
  non_no_key : ∀ b ∈ T.non_models, lookupP b T.pending = none

/-! Embedding of the marker-comment behaviour of the rewrite passes
(`warn_replaced_overrides.py` and `validator.py`) for the idempotence claim.
The CST plumbing (matchers, metadata) is out of scope per the spec; nodes are
reduced to the data these passes read and write: the leading comment lines
and the data deciding whether the pass fires. -/

/-- `ATTRIBUTE_MAP` from `replace_model_attribute_access.py`. -/
def ATTRIBUTE_MAP : List (String × String) :=
  [("__fields__", "model_fields"),
   ("__private_attributes__", "__pydantic_private__"),
   ("__validators__", "__pydantic_validator__"),
   ("construct", "model_construct"),
   ("copy", "model_copy"),
   ("dict", "model_dump"),
   ("json_schema", "model_json_schema"),
   ("json", "model_dump_json"),
   ("parse_obj", "model_validate"),
   ("update_forward_refs", "model_rebuild"),
   ("parse_raw", "model_validate_json")]

/-- The three comment lines of `REFACTOR_COMMENT` in
`warn_replaced_overrides.py`, formatted for a given method rename. -/
def warnRefactorLines (oldName newName : String) : List String :=
  ["# TODO[pydantic]: overriding a deprecated model method: `" ++ oldName ++
     "` is replaced by `" ++ newName ++ "`.",
   "# You may need to refactor this and add tests to ensure the intended behavior is preserved.",
   "# Check https://docs.pydantic.dev/dev-v2/migration/#changes-to-pydanticbasemodel for more information."]

/-- A method definition as read and written by `leave_old_model_method`:
its leading comment lines and its name. -/
structure MethodDef where
  leading : List String
  methodName : String
deriving DecidableEq

/-- `WarnReplacedOverridesCommand.leave_old_model_method`: when the ancestor
and model checks pass (`guardOk`, abstracting `_is_pydantic_model` and the
ancestor matchers) and the method name is in `ATTRIBUTE_MAP`, the refactor
comment lines are appended to the leading lines — unconditionally. -/
def leave_old_model_method (guardOk : Bool) (f : MethodDef) : MethodDef :=
  if guardOk then
    match ATTRIBUTE_MAP.lookup f.methodName with
    | some newName => { f with leading := f.leading ++ warnRefactorLines f.methodName newName }
    | none => f
  else f

/-- `CHECK_LINK_COMMENT` from `validator.py`. -/
def CHECK_LINK_COMMENT : String :=
  "# Check https://docs.pydantic.dev/dev-v2/migration/#changes-to-validators for more information."

/-- `VALIDATOR_COMMENT` from `validator.py` (the apostrophe is written with
an escape). -/
def VALIDATOR_COMMENT : String :=
  "# TODO[pydantic]: We couldn\x27t refactor the `validator`, please replace it by `field_validator` manually."

/-- A validator function node as read and written by the marker-comment logic
of `ValidatorCodemod`: the leading comment lines scanned by
`visit_validator_func`, and whether the function shape forces
`_should_add_comment` (too many parameters / `**kwargs`). -/
structure ValidatorFunc where
  leading : List String
  needsComment : Bool
deriving DecidableEq

/-- The marker-comment path of `ValidatorCodemod` for one validator function:
`visit_validator_func` sets `_has_comment` when a leading line equals
`CHECK_LINK_COMMENT`; `leave_validator_decorator` then returns the node
unchanged, and otherwise attaches `VALIDATOR_COMMENT` and
`CHECK_LINK_COMMENT` when `_should_add_comment` is set. -/
def validatorMarkerPass (f : ValidatorFunc) : ValidatorFunc :=
  let hasComment := f.leading.any (fun line => line = CHECK_LINK_COMMENT)
  if hasComment then f
  else if f.needsComment then
    { f with leading := f.leading ++ [VALIDATOR_COMMENT, CHECK_LINK_COMMENT] }
  else f

/-! Embedding of `run_codemods` and the exit-code logic of `main`
(`bump_pydantic/main.py`).  The CST is an abstract type: parsing, printing,
diffing and the individual codemods are parameters. -/

/-- What `run_codemods` leaves behind for one file: the on-disk content after
the call, the returned error (if any) and the returned diff lines (if any). -/
structure FileOutcome where
  content : String
  errorMsg : Option String
  diffLines : Option (List String)
deriving DecidableEq

/-- The codemod pipeline loop: each codemod transforms the previous tree;
a raised exception anywhere aborts the whole pipeline. -/
def applyCodemods {τ : Type} (cms : List (τ → Except String τ)) (t : τ) : Except String τ :=
  cms.foldl (fun acc cm => acc.bind cm) (Except.ok t)

/-- `run_codemods` for one file with current content `code`: parse, run the
pipeline, and only on success and only when not in diff mode write the new
content back; a parse error or any exception leaves the content as it was
and returns an error message instead. -/
def run_codemods {τ : Type} (parse : String → Except String τ) (printT : τ → String)
    (diffOf : String → String → List String) (cms : List (τ → Except String τ))
    (diff : Bool) (filename code : String) : FileOutcome :=
  match parse code with
  | Except.error e =>
    ⟨code, some ("A syntax error happened on " ++ filename ++
      ". This file cannot be formatted.\n" ++ e), none⟩
  | Except.ok tree =>
    match applyCodemods cms tree with
    | Except.error e => ⟨code, some ("An error happened on " ++ filename ++ ".\n" ++ e), none⟩
    | Except.ok outTree =>
      let output_code := printT outTree
      if code ≠ output_code then
        if diff then ⟨code, none, some (diffOf code output_code)⟩
        else ⟨output_code, none, none⟩
      else ⟨code, none, none⟩

/-- The end of `main`: the collected diff line lists, over all files. -/
def collectDiffs (rs : List FileOutcome) : List (List String) :=
  rs.filterMap (fun r => r.diffLines)

/-- The end of `main`: `raise Exit(1)` exactly when `difflines` is nonempty,
else a normal return (exit code 0). -/
def mainExitCode (rs : List FileOutcome) : Nat :=
  if collectDiffs rs ≠ [] then 1 else 0

/-! Basic algebra of the set and map operations. -/

theorem mem_addS {x y : String} {l : List String} :
    x ∈ addS y l ↔ x = y ∨ x ∈ l := by
  unfold addS
  split
  · constructor
    · exact fun h => Or.inr h
    · rintro (rfl | h) <;> assumption
  · simp [or_comm]

theorem mem_addS_self {y : String} {l : List String} : y ∈ addS y l :=
  mem_addS.mpr (Or.inl rfl)

theorem mem_addS_of_mem {x y : String} {l : List String} (h : x ∈ l) : x ∈ addS y l :=
  mem_addS.mpr (Or.inr h)

theorem lookupP_cons {k k' : String} {v : PendingClass} {l : List (String × PendingClass)} :
    lookupP k ((k', v) :: l) = if k' = k then some v else lookupP k l := rfl

theorem lookupP_eq_none {k : String} {l : List (String × PendingClass)} :
    lookupP k l = none ↔ ∀ v, (k, v) ∉ l := by
  induction l with
  | nil => simp [lookupP]
  | cons hd tl ih =>
    cases hd with
    | mk k' v' =>
      rw [lookupP_cons]
      by_cases hk : k' = k
      · subst hk
        rw [if_pos rfl]
        constructor
        · intro h
          cases h
        · intro h
          exact (h v' (List.mem_cons_self _ _)).elim
      · rw [if_neg hk, ih]
        constructor
        · intro h v hv
          rcases List.mem_cons.mp hv with hv | hv
          · exact hk (congrArg Prod.fst hv).symm
          · exact h v hv
        · intro h v hv
          exact h v (List.mem_cons_of_mem _ hv)

theorem lookupP_mem {k : String} {v : PendingClass} {l : List (String × PendingClass)}
    (h : lookupP k l = some v) : (k, v) ∈ l := by
  induction l with
  | nil => simp [lookupP] at h
  | cons hd tl ih =>
    cases hd with
    | mk k' v' =>
      rw [lookupP_cons] at h
      by_cases hk : k' = k
      · subst hk
        rw [if_pos rfl] at h
        cases h
        exact List.mem_cons_self _ _
      · rw [if_neg hk] at h
        exact List.mem_cons_of_mem _ (ih h)

theorem lookupP_of_mem {k : String} {v : PendingClass} {l : List (String × PendingClass)}
    (hnd : (l.map Prod.fst).Nodup) (h : (k, v) ∈ l) : lookupP k l = some v := by
  induction l with
  | nil => simp at h
  | cons hd tl ih =>
    cases hd with
    | mk k' v' =>
      simp only [List.map_cons, List.nodup_cons] at hnd
      rcases List.mem_cons.mp h with heq | hmem
      · cases heq
        simp [lookupP]
      · have hk : k' ≠ k := by
          intro hkk
          subst hkk
          exact hnd.1 (List.mem_map.mpr ⟨(k', v), hmem, rfl⟩)
        simp only [lookupP, hk, if_false]
        exact ih hnd.2 hmem

theorem lookupP_isSome_iff {k : String} {l : List (String × PendingClass)} :
    (lookupP k l).isSome ↔ ∃ v, (k, v) ∈ l := by
  cases h : lookupP k l with
  | none =>
    simp only [Option.isSome_none, Bool.false_eq_true, false_iff]
    intro ⟨v, hv⟩
    exact lookupP_eq_none.mp h v hv
  | some v =>
    simp only [Option.isSome_some, true_iff]
    exact ⟨v, lookupP_mem h⟩

theorem lookupP_eraseP_self {k : String} {l : List (String × PendingClass)}
    (hnd : (l.map Prod.fst).Nodup) : lookupP k (eraseP k l) = none := by
  induction l with
  | nil => simp [eraseP, lookupP]
  | cons hd tl ih =>
    cases hd with
    | mk k' v' =>
      simp only [List.map_cons, List.nodup_cons] at hnd
      by_cases hk : k' = k
      · subst hk
        simp only [eraseP, if_pos rfl]
        rw [lookupP_eq_none]
        intro v hv
        exact hnd.1 (List.mem_map.mpr ⟨(k', v), hv, rfl⟩)
      · simp only [eraseP, hk, if_false, lookupP, ih hnd.2]

theorem lookupP_eraseP_ne {k k' : String} {l : List (String × PendingClass)}
    (h : k' ≠ k) : lookupP k' (eraseP k l) = lookupP k' l := by
  induction l with
  | nil => simp [eraseP]
  | cons hd tl ih =>
    cases hd with
    | mk k₀ v₀ =>
      by_cases hk : k₀ = k
      · subst hk
        rw [eraseP, if_pos rfl, lookupP_cons, if_neg (fun hq => h hq.symm)]
      · rw [eraseP, if_neg hk, lookupP_cons, lookupP_cons]
        by_cases hq : k₀ = k'
        · rw [if_pos hq, if_pos hq]
        · rw [if_neg hq, if_neg hq, ih]

theorem eraseP_sublist (k : String) (l : List (String × PendingClass)) :
    (eraseP k l).Sublist l := by
  induction l with
  | nil => simp [eraseP]
  | cons hd tl ih =>
    cases hd with
    | mk k' v =>
      by_cases hk : k' = k
      · simp only [eraseP, hk, if_pos rfl]
        exact List.sublist_cons_self _ _
      · simp only [eraseP, hk, if_false]
        exact ih.cons₂ _

theorem eraseP_keys_nodup {k : String} {l : List (String × PendingClass)}
    (hnd : (l.map Prod.fst).Nodup) : ((eraseP k l).map Prod.fst).Nodup :=
  (((eraseP_sublist k l).map Prod.fst).nodup hnd)

theorem updPB_keys (k : String) (pb : List String) (l : List (String × PendingClass)) :
    (updPB k pb l).map Prod.fst = l.map Prod.fst := by
  unfold updPB
  rw [List.map_map]
  congr 1
  funext e
  by_cases h : e.1 = k <;> simp [h]

theorem updPB_cons {k k₀ : String} {pb : List String} {v : PendingClass}
    {l : List (String × PendingClass)} :
    updPB k pb ((k₀, v) :: l) =
      (if k₀ = k then (k₀, ⟨pb, v.subclasses⟩) else (k₀, v)) :: updPB k pb l := by
  by_cases h : k₀ = k <;> simp [updPB, h]

theorem lookupP_updPB_self {k : String} {pb : List String} {e : PendingClass}
    {l : List (String × PendingClass)} (h : lookupP k l = some e) :
    lookupP k (updPB k pb l) = some ⟨pb, e.subclasses⟩ := by
  induction l with
  | nil => simp [lookupP] at h
  | cons hd tl ih =>
    cases hd with
    | mk k' v =>
      rw [lookupP_cons] at h
      rw [updPB_cons]
      by_cases hk : k' = k
      · subst hk
        rw [if_pos rfl] at h
        cases h
        rw [if_pos rfl, lookupP_cons, if_pos rfl]
      · rw [if_neg hk] at h
        rw [if_neg hk, lookupP_cons, if_neg hk]
        exact ih h

theorem lookupP_updPB_ne {k k' : String} {pb : List String}
    {l : List (String × PendingClass)} (h : k' ≠ k) :
    lookupP k' (updPB k pb l) = lookupP k' l := by
  induction l with
  | nil => simp [updPB, lookupP]
  | cons hd tl ih =>
    cases hd with
    | mk k₀ v =>
      rw [updPB_cons]
      by_cases hk : k₀ = k
      · subst hk
        rw [if_pos rfl, lookupP_cons, lookupP_cons,
          if_neg (fun hq => h hq.symm), if_neg (fun hq => h hq.symm)]
        exact ih
      · rw [if_neg hk, lookupP_cons, lookupP_cons]
        by_cases hq : k₀ = k'
        · rw [if_pos hq, if_pos hq]
        · rw [if_neg hq, if_neg hq, ih]

theorem mem_keys_iff {k : String} {l : List (String × PendingClass)} :
    k ∈ l.map Prod.fst ↔ ∃ v, (k, v) ∈ l := by
  rw [List.mem_map]
  constructor
  · rintro ⟨⟨k', v⟩, hm, rfl⟩
    exact ⟨v, hm⟩
  · rintro ⟨v, hv⟩
    exact ⟨(k, v), hv, rfl⟩

theorem lookupP_append_right {k : String} {l l' : List (String × PendingClass)}
    (h : lookupP k l = none) : lookupP k (l ++ l') = lookupP k l' := by
  induction l with
  | nil => simp
  | cons hd tl ih =>
    cases hd with
    | mk k' v =>
      by_cases hk : k' = k
      · simp [lookupP, hk] at h
      · simp only [lookupP, hk, if_false] at h
        simp only [List.cons_append, lookupP, hk, if_false]
        exact ih h

theorem lookupP_append_left {k : String} {v : PendingClass}
    {l l' : List (String × PendingClass)}
    (h : lookupP k l = some v) : lookupP k (l ++ l') = some v := by
  induction l with
  | nil => simp [lookupP] at h
  | cons hd tl ih =>
    cases hd with
    | mk k' v' =>
      by_cases hk : k' = k
      · simp_all [lookupP]
      · simp only [lookupP, hk, if_false] at h
        simp only [List.cons_append, lookupP, hk, if_false]
        exact ih h

theorem lookupP_singleton_self {k : String} {v : PendingClass} :
    lookupP k [(k, v)] = some v := by
  simp [lookupP]

theorem lookupP_singleton_ne {k k' : String} {v : PendingClass} (h : k' ≠ k) :
    lookupP k' [(k, v)] = none := by
  rw [lookupP_cons, if_neg (fun hq => h hq.symm)]
  rfl

theorem lookupP_mapSet_self {k : String} {w : PendingClass}
    {l : List (String × PendingClass)} (h : (lookupP k l).isSome) :
    lookupP k (l.map (fun p => if p.1 = k then (p.1, w) else p)) = some w := by
  induction l with
  | nil => simp [lookupP] at h
  | cons hd tl ih =>
    cases hd with
    | mk k₀ v =>
      rw [List.map_cons]
      by_cases hk : k₀ = k
      · subst hk
        show lookupP k₀ ((if k₀ = k₀ then (k₀, w) else (k₀, v)) :: _) = some w
        rw [if_pos rfl, lookupP_cons, if_pos rfl]
      · show lookupP k ((if k₀ = k then (k₀, w) else (k₀, v)) :: _) = some w
        rw [if_neg hk, lookupP_cons, if_neg hk]
        rw [lookupP_cons, if_neg hk] at h
        exact ih h

theorem lookupP_mapSet_ne {k k' : String} {w : PendingClass}
    {l : List (String × PendingClass)} (h : k' ≠ k) :
    lookupP k' (l.map (fun p => if p.1 = k then (p.1, w) else p)) = lookupP k' l := by
  induction l with
  | nil => simp
  | cons hd tl ih =>
    cases hd with
    | mk k₀ v =>
      rw [List.map_cons]
      by_cases hk : k₀ = k
      · subst hk
        show lookupP k' ((if k₀ = k₀ then (k₀, w) else (k₀, v)) :: _) = _
        rw [if_pos rfl, lookupP_cons, lookupP_cons,
          if_neg (fun hq => h hq.symm), if_neg (fun hq => h hq.symm)]
        exact ih
      · show lookupP k' ((if k₀ = k then (k₀, w) else (k₀, v)) :: _) = _
        rw [if_neg hk, lookupP_cons, lookupP_cons]
        by_cases hq : k₀ = k'
        · rw [if_pos hq, if_pos hq]
        · rw [if_neg hq, if_neg hq, ih]

theorem mapSet_keys {k : String} {w : PendingClass} {l : List (String × PendingClass)} :
    (l.map (fun p => if p.1 = k then (p.1, w) else p)).map Prod.fst = l.map Prod.fst := by
  rw [List.map_map]
  congr 1
  funext p
  by_cases hp : p.1 = k <;> simp [hp]

theorem pendSetBases_lookup_self_some {k : String} {pb : List String} {e : PendingClass}
    {l : List (String × PendingClass)} (h : lookupP k l = some e) :
    lookupP k (pendSetBases k pb l) = some ⟨pb, e.subclasses⟩ := by
  unfold pendSetBases
  rw [if_pos (by rw [h]; rfl)]
  exact lookupP_updPB_self h

theorem pendSetBases_lookup_self_none {k : String} {pb : List String}
    {l : List (String × PendingClass)} (h : lookupP k l = none) :
    lookupP k (pendSetBases k pb l) = some ⟨pb, []⟩ := by
  unfold pendSetBases
  rw [if_neg (by rw [h]; simp)]
  rw [lookupP_append_right h, lookupP_singleton_self]

theorem pendSetBases_lookup_ne {k k' : String} {pb : List String}
    {l : List (String × PendingClass)} (h : k' ≠ k) :
    lookupP k' (pendSetBases k pb l) = lookupP k' l := by
  unfold pendSetBases
  split
  · exact lookupP_updPB_ne h
  · cases hl : lookupP k' l with
    | none => rw [lookupP_append_right hl, lookupP_singleton_ne h]
    | some v => rw [lookupP_append_left hl]

theorem pendSetBases_keys_nodup {k : String} {pb : List String}
    {l : List (String × PendingClass)} (hnd : (l.map Prod.fst).Nodup) :
    ((pendSetBases k pb l).map Prod.fst).Nodup := by
  unfold pendSetBases
  split
  · rw [updPB_keys]
    exact hnd
  · next h =>
    have hk : k ∉ l.map Prod.fst := by
      intro hmem
      rcases mem_keys_iff.mp hmem with ⟨v, hv⟩
      cases hl : lookupP k l with
      | none => exact lookupP_eq_none.mp hl v hv
      | some w => rw [hl] at h; simp at h
    simp only [List.map_append, List.map_cons, List.map_nil]
    rw [List.nodup_append]
    refine ⟨hnd, List.nodup_singleton _, ?_⟩
    intro a ha hb
    simp only [List.mem_singleton] at hb
    subst hb
    exact hk ha

theorem pendAddSubclass_lookup_self_some {k n : String} {e : PendingClass}
    {l : List (String × PendingClass)} (h : lookupP k l = some e) :
    lookupP k (pendAddSubclass k n l) = some ⟨e.pending_bases, addS n e.subclasses⟩ := by
  unfold pendAddSubclass
  rw [h]
  exact lookupP_mapSet_self (by rw [h]; rfl)

theorem pendAddSubclass_lookup_self_none {k n : String}
    {l : List (String × PendingClass)} (h : lookupP k l = none) :
    lookupP k (pendAddSubclass k n l) = some ⟨[], [n]⟩ := by
  unfold pendAddSubclass
  rw [h, lookupP_append_right h, lookupP_singleton_self]

theorem pendAddSubclass_lookup_ne {k k' n : String}
    {l : List (String × PendingClass)} (h : k' ≠ k) :
    lookupP k' (pendAddSubclass k n l) = lookupP k' l := by
  unfold pendAddSubclass
  cases hl : lookupP k l with
  | none =>
    show lookupP k' (l ++ [(k, ⟨[], [n]⟩)]) = lookupP k' l
    cases hl' : lookupP k' l with
    | none => rw [lookupP_append_right hl', lookupP_singleton_ne h]
    | some v => rw [lookupP_append_left hl']
  | some e => exact lookupP_mapSet_ne h

theorem pendAddSubclass_keys_nodup {k n : String}
    {l : List (String × PendingClass)} (hnd : (l.map Prod.fst).Nodup) :
    ((pendAddSubclass k n l).map Prod.fst).Nodup := by
  unfold pendAddSubclass
  cases hl : lookupP k l with
  | some e =>
    rw [mapSet_keys]
    exact hnd
  | none =>
    have hk : k ∉ l.map Prod.fst := by
      intro hmem
      rcases mem_keys_iff.mp hmem with ⟨v, hv⟩
      exact lookupP_eq_none.mp hl v hv
    simp only [List.map_append, List.map_cons, List.map_nil]
    rw [List.nodup_append]
    refine ⟨hnd, List.nodup_singleton _, ?_⟩
    intro a ha hb
    simp only [List.mem_singleton] at hb
    subst hb
    exact hk ha

/-! Semantic lemmas about `Mem` and `NonMem`. -/

theorem mem_of_subset {O O' : List Decl} (hsub : ∀ p ∈ O, p ∈ O') {n : String}
    (h : Mem O n) : Mem O' n := by
  induction h with
  | seed hs => exact Mem.seed hs
  | base hd hb _ ih => exact Mem.base (hsub _ hd) hb ih

theorem mem_append_one {O : List Decl} (d : Decl) {n : String} (h : Mem O n) :
    Mem (O ++ [d]) n :=
  mem_of_subset (fun _ hp => List.mem_append_left _ hp) h

theorem mem_iff_of_mem_iff {O O' : List Decl} (h : ∀ p, p ∈ O ↔ p ∈ O') (n : String) :
    Mem O n ↔ Mem O' n :=
  ⟨mem_of_subset (fun p hp => (h p).mp hp), mem_of_subset (fun p hp => (h p).mpr hp)⟩

theorem nonmem_iff_of_mem_iff {O O' : List Decl} (h : ∀ p, p ∈ O ↔ p ∈ O') (n : String) :
    NonMem O n ↔ NonMem O' n := by
  have main : ∀ (A B : List Decl), (∀ p, p ∈ A ↔ p ∈ B) → ∀ m, NonMem A m → NonMem B m := by
    intro A B hAB m hm
    induction hm with
    | intro hd hnm _ ih =>
      exact NonMem.intro ((hAB _).mp hd)
        (fun b hb hM => hnm b hb (mem_of_subset (fun p hp => (hAB p).mpr hp) hM))
        (fun b hb => ih b hb)
  exact ⟨main O O' h n, main O' O (fun p => (h p).symm) n⟩

theorem nonmem_inv {O : List Decl} {n : String} (h : NonMem O n) :
    ∃ bs, (n, bs) ∈ O ∧ (∀ b ∈ bs, ¬ Mem O b) ∧ (∀ b ∈ bs, NonMem O b) := by
  cases h with
  | intro hd hnm hnon => exact ⟨_, hd, hnm, hnon⟩

theorem nonmem_declared {O : List Decl} {n : String} (h : NonMem O n) :
    n ∈ O.map Prod.fst := by
  rcases nonmem_inv h with ⟨bs, hd, _, _⟩
  exact List.mem_map.mpr ⟨(n, bs), hd, rfl⟩

theorem decl_unique {O : List Decl} (hnd : (O.map Prod.fst).Nodup) {n : String}
    {bs bs' : List String} (h1 : (n, bs) ∈ O) (h2 : (n, bs') ∈ O) : bs = bs' := by
  induction O with
  | nil => cases h1
  | cons hd tl ih =>
    simp only [List.map_cons, List.nodup_cons] at hnd
    rcases List.mem_cons.mp h1 with e1 | m1
    · rcases List.mem_cons.mp h2 with e2 | m2
      · have := e1.trans e2.symm
        exact (Prod.mk.injEq _ _ _ _ ▸ this).2
      · exfalso
        apply hnd.1
        rw [← e1]
        exact List.mem_map.mpr ⟨(n, bs'), m2, rfl⟩
    · rcases List.mem_cons.mp h2 with e2 | m2
      · exfalso
        apply hnd.1
        rw [← e2]
        exact List.mem_map.mpr ⟨(n, bs), m1, rfl⟩
      · exact ih hnd.2 m1 m2

theorem mem_prime_cases {O : List Decl} {m : String} {bs : List String} {x : String}
    (h : Mem (O ++ [(m, bs)]) x) : Mem O x ∨ ReachNew O m x := by
  induction h with
  | seed hs => exact Or.inl (Mem.seed hs)
  | @base n bsx b hd hb _ ih =>
    rcases List.mem_append.mp hd with hdO | hdd
    · rcases ih with hM | hR
      · exact Or.inl (Mem.base hdO hb hM)
      · by_cases hx : Mem O n
        · exact Or.inl hx
        · exact Or.inr (ReachNew.step hR hdO hb hx)
    · simp only [List.mem_singleton, Prod.mk.injEq] at hdd
      exact Or.inr (hdd.1 ▸ ReachNew.root)

theorem reachNew_mem {O : List Decl} {m : String} {bs : List String}
    (hm : Mem (O ++ [(m, bs)]) m) {x : String} (h : ReachNew O m x) :
    Mem (O ++ [(m, bs)]) x := by
  induction h with
  | root => exact hm
  | step _ hd hb _ ih => exact Mem.base (List.mem_append_left _ hd) hb ih

theorem mem_prime_not_nonmem {O : List Decl} {m : String} {bs : List String}
    (honodup : (O.map Prod.fst).Nodup) (hfresh : m ∉ O.map Prod.fst) {x : String}
    (h : Mem (O ++ [(m, bs)]) x) : Mem O x ∨ ¬ NonMem O x := by
  induction h with
  | seed hs => exact Or.inl (Mem.seed hs)
  | @base n bsx b hd hb _ ih =>
    rcases List.mem_append.mp hd with hdO | hdd
    · rcases ih with hM | hnN
      · exact Or.inl (Mem.base hdO hb hM)
      · right
        intro hN
        rcases nonmem_inv hN with ⟨bs', hd', _, hnon'⟩
        have hbs : bs' = bsx := decl_unique honodup hd' hdO
        subst hbs
        exact hnN (hnon' b hb)
    · simp only [List.mem_singleton, Prod.mk.injEq] at hdd
      right
      intro hN
      exact hfresh (hdd.1 ▸ nonmem_declared hN)

theorem mem_eq_of_no_mem_base {O : List Decl} {m : String} {bs : List String}
    (hno : ∀ b ∈ bs, ¬ Mem O b) (x : String) : Mem (O ++ [(m, bs)]) x ↔ Mem O x := by
  constructor
  · intro h
    induction h with
    | seed hs => exact Mem.seed hs
    | base hd hb _ ih =>
      rcases List.mem_append.mp hd with hdO | hdd
      · exact Mem.base hdO hb ih
      · simp only [List.mem_singleton, Prod.mk.injEq] at hdd
        exact absurd ih (hno _ (hdd.2 ▸ hb))
  · exact mem_append_one _

theorem nonmem_append_one {O : List Decl} {m : String} {bs : List String}
    (honodup : (O.map Prod.fst).Nodup) (hfresh : m ∉ O.map Prod.fst) {x : String}
    (h : NonMem O x) : NonMem (O ++ [(m, bs)]) x := by
  induction h with
  | intro hd hnm hnon ih =>
    refine NonMem.intro (List.mem_append_left _ hd) ?_ (fun b hb => ih b hb)
    intro b hb hM'
    rcases mem_prime_not_nonmem honodup hfresh hM' with hMO | hnN
    · exact hnm b hb hMO
    · exact hnN (hnon b hb)

theorem nonmem_eq_of_unresolved {O : List Decl} {m : String} {bs : List String}
    (honodup : (O.map Prod.fst).Nodup) (hfresh : m ∉ O.map Prod.fst)
    (hq : ∃ b ∈ bs, ¬ NonMem O b) (x : String) :
    NonMem (O ++ [(m, bs)]) x ↔ NonMem O x := by
  constructor
  · intro h
    induction h with
    | @intro n bsx hd hnm hnon ih =>
      rcases List.mem_append.mp hd with hdO | hdd
      · exact NonMem.intro hdO
          (fun b hb hM => hnm b hb (mem_append_one _ hM)) (fun b hb => ih b hb)
      · exfalso
        simp only [List.mem_singleton, Prod.mk.injEq] at hdd
        rcases hq with ⟨b, hb, hnb⟩
        exact hnb (ih b (hdd.2 ▸ hb))
  · exact nonmem_append_one honodup hfresh

theorem nonmem_eq_of_mem_base {O : List Decl} {m : String} {bs : List String}
    (honodup : (O.map Prod.fst).Nodup) (hfresh : m ∉ O.map Prod.fst)
    (hq : ∃ b ∈ bs, Mem O b) (x : String) :
    NonMem (O ++ [(m, bs)]) x ↔ NonMem O x := by
  constructor
  · intro h
    induction h with
    | @intro n bsx hd hnm hnon ih =>
      rcases List.mem_append.mp hd with hdO | hdd
      · exact NonMem.intro hdO
          (fun b hb hM => hnm b hb (mem_append_one _ hM)) (fun b hb => ih b hb)
      · exfalso
        simp only [List.mem_singleton, Prod.mk.injEq] at hdd
        rcases hq with ⟨b, hb, hMb⟩
        exact hnm b (hdd.2 ▸ hb) (mem_append_one _ hMb)
  · exact nonmem_append_one honodup hfresh

theorem mem_nonmem_seed {O : List Decl} (honodup : (O.map Prod.fst).Nodup) {n : String}
    (hM : Mem O n) (hN : NonMem O n) : n ∈ seedList := by
  cases hM with
  | seed hs => exact hs
  | base hd hb hMb =>
    rcases nonmem_inv hN with ⟨bs', hd', hnm', _⟩
    have hbs : bs' = _ := decl_unique honodup hd' hd
    subst hbs
    exact absurd hMb (hnm' _ hb)

theorem inv_key_not_non {O : List Decl} {S : VisitorState} (hInv : Inv O S)
    {n : String} {e : PendingClass} (h : lookupP n S.pending = some e) :
    ¬ NonMem O n := by
  intro hN
  rcases nonmem_inv hN with ⟨bs, hd, _, hnon⟩
  have hpb : e.pending_bases = [] := by
    rw [List.eq_nil_iff_forall_not_mem]
    intro b hb
    rcases (hInv.pb_iff n e h b).mp hb with ⟨bs', hd', hb', _, hnN⟩
    have hbs : bs' = bs := decl_unique hInv.onodup hd' hd
    subst hbs
    exact hnN (hnon b hb')
  have hiff := hInv.pb_nonempty_iff n e h
  rw [hpb] at hiff
  exact (by simpa using hiff.mpr (List.mem_map.mpr ⟨(n, bs), hd, rfl⟩))

theorem inv_key_mem_seed {O : List Decl} {S : VisitorState} (hInv : Inv O S)
    {n : String} {e : PendingClass} (h : lookupP n S.pending = some e)
    (hM : Mem O n) : n ∈ seedList := by
  cases hM with
  | seed hs => exact hs
  | base hd hb hMb => exact absurd hMb (hInv.key_bases_not_mem n e _ h hd _ hb)

/-! Lemmas about the `_setIsModel` cascade. -/

theorem lookupP_none_of_sublist {x : String} {l l' : List (String × PendingClass)}
    (hsub : l'.Sublist l) (h : lookupP x l = none) : lookupP x l' = none := by
  rw [lookupP_eq_none] at h ⊢
  exact fun v hv => h v (hsub.mem hv)

theorem lookupP_eraseP_some {x n : String} {e : PendingClass}
    {l : List (String × PendingClass)} (hnd : (l.map Prod.fst).Nodup)
    (h : lookupP x (eraseP n l) = some e) : lookupP x l = some e := by
  by_cases hx : x = n
  · subst hx
    rw [lookupP_eraseP_self hnd] at h
    cases h
  · rwa [lookupP_eraseP_ne hx] at h

theorem setIsModelGo_nil (S : VisitorState) : setIsModelGo S [] = S := by
  simp [setIsModelGo]

theorem setIsModelGo_cons_none {S : VisitorState} {n : String} {rest : List String}
    (h : lookupP n S.pending = none) :
    setIsModelGo S (n :: rest) =
      setIsModelGo { S with models := addS n S.models } rest := by
  rw [setIsModelGo.eq_2]
  split
  · rfl
  · next e h' => rw [h] at h'; cases h'

theorem setIsModelGo_cons_some {S : VisitorState} {n : String} {rest : List String}
    {e : PendingClass} (h : lookupP n S.pending = some e) :
    setIsModelGo S (n :: rest) =
      setIsModelGo { S with models := addS n S.models, pending := eraseP n S.pending }
        (e.subclasses ++ rest) := by
  rw [setIsModelGo.eq_2]
  split
  · next h' => rw [h] at h'; cases h'
  · next e' h' =>
    rw [h] at h'
    cases h'
    rfl

theorem setIsModelGo_non_models (S : VisitorState) (stack : List String) :
    (setIsModelGo S stack).non_models = S.non_models := by
  induction S, stack using setIsModelGo.induct with
  | case1 S => rw [setIsModelGo_nil]
  | case2 S n rest h ih => rw [setIsModelGo_cons_none h]; exact ih
  | case3 S n rest e h ih => rw [setIsModelGo_cons_some h]; exact ih

theorem setIsModelGo_pending_sublist (S : VisitorState) (stack : List String) :
    (setIsModelGo S stack).pending.Sublist S.pending := by
  induction S, stack using setIsModelGo.induct with
  | case1 S => rw [setIsModelGo_nil]
  | case2 S n rest h ih => rw [setIsModelGo_cons_none h]; exact ih
  | case3 S n rest e h ih =>
    rw [setIsModelGo_cons_some h]
    exact ih.trans (eraseP_sublist n S.pending)

theorem setIsModelGo_models_super (S : VisitorState) (stack : List String) :
    ∀ x ∈ S.models, x ∈ (setIsModelGo S stack).models := by
  induction S, stack using setIsModelGo.induct with
  | case1 S => rw [setIsModelGo_nil]; exact fun x hx => hx
  | case2 S n rest h ih =>
    rw [setIsModelGo_cons_none h]
    exact fun x hx => ih x (mem_addS_of_mem hx)
  | case3 S n rest e h ih =>
    rw [setIsModelGo_cons_some h]
    exact fun x hx => ih x (mem_addS_of_mem hx)

theorem setIsModelGo_stack_marked (S : VisitorState) (stack : List String) :
    ∀ x ∈ stack, x ∈ (setIsModelGo S stack).models := by
  induction S, stack using setIsModelGo.induct with
  | case1 S => intro x hx; cases hx
  | case2 S n rest h ih =>
    rw [setIsModelGo_cons_none h]
    intro x hx
    rcases List.mem_cons.mp hx with rfl | hx
    · exact setIsModelGo_models_super _ _ x mem_addS_self
    · exact ih x hx
  | case3 S n rest e h ih =>
    rw [setIsModelGo_cons_some h]
    intro x hx
    rcases List.mem_cons.mp hx with rfl | hx
    · exact setIsModelGo_models_super _ _ x mem_addS_self
    · exact ih x (List.mem_append_right _ hx)

theorem setIsModelGo_pending_lookup (S : VisitorState) (stack : List String) :
    (S.pending.map Prod.fst).Nodup →
    ∀ x e, lookupP x (setIsModelGo S stack).pending = some e →
      lookupP x S.pending = some e := by
  induction S, stack using setIsModelGo.induct with
  | case1 S => intro _ x e h; rwa [setIsModelGo_nil] at h
  | case2 S n rest h ih =>
    intro hnd x e hx
    rw [setIsModelGo_cons_none h] at hx
    exact ih hnd x e hx
  | case3 S n rest e h ih =>
    intro hnd x e' hx
    rw [setIsModelGo_cons_some h] at hx
    exact lookupP_eraseP_some hnd (ih (eraseP_keys_nodup hnd) x e' hx)

theorem setIsModelGo_sound (Good : String → Prop) (S : VisitorState) (stack : List String) :
    (S.pending.map Prod.fst).Nodup →
    (∀ x ∈ stack, Good x) →
    (∀ k e x, lookupP k S.pending = some e → x ∈ e.subclasses → Good k → Good x) →
    ∀ x ∈ (setIsModelGo S stack).models, x ∈ S.models ∨ Good x := by
  induction S, stack using setIsModelGo.induct with
  | case1 S =>
    intro _ _ _ x hx
    rw [setIsModelGo_nil] at hx
    exact Or.inl hx
  | case2 S n rest h ih =>
    intro hnd hst hcl x hx
    rw [setIsModelGo_cons_none h] at hx
    rcases ih hnd (fun y hy => hst y (List.mem_cons_of_mem _ hy)) hcl x hx with hM | hG
    · rcases mem_addS.mp hM with rfl | hM
      · exact Or.inr (hst x (List.mem_cons_self _ _))
      · exact Or.inl hM
    · exact Or.inr hG
  | case3 S n rest e h ih =>
    intro hnd hst hcl x hx
    rw [setIsModelGo_cons_some h] at hx
    have hGn : Good n := hst n (List.mem_cons_self _ _)
    have hst' : ∀ y ∈ e.subclasses ++ rest, Good y := by
      intro y hy
      rcases List.mem_append.mp hy with hy | hy
      · exact hcl n e y h hy hGn
      · exact hst y (List.mem_cons_of_mem _ hy)
    have hcl' : ∀ k e' x', lookupP k (eraseP n S.pending) = some e' →
        x' ∈ e'.subclasses → Good k → Good x' := by
      intro k e' x' hk hx' hGk
      exact hcl k e' x' (lookupP_eraseP_some hnd hk) hx' hGk
    rcases ih (eraseP_keys_nodup hnd) hst' hcl' x hx with hM | hG
    · rcases mem_addS.mp hM with rfl | hM
      · exact Or.inr hGn
      · exact Or.inl hM
    · exact Or.inr hG

theorem setIsModelGo_popped_marked (S : VisitorState) (stack : List String) :
    ∀ x e, lookupP x S.pending = some e →
      lookupP x (setIsModelGo S stack).pending = none →
      x ∈ (setIsModelGo S stack).models := by
  induction S, stack using setIsModelGo.induct with
  | case1 S =>
    intro x e hx hnone
    rw [setIsModelGo_nil] at hnone
    rw [hx] at hnone
    cases hnone
  | case2 S n rest h ih =>
    intro x e hx hnone
    rw [setIsModelGo_cons_none h] at hnone ⊢
    exact ih x e hx hnone
  | case3 S n rest e h ih =>
    intro x e' hx hnone
    rw [setIsModelGo_cons_some h] at hnone ⊢
    by_cases hxn : x = n
    · subst hxn
      exact setIsModelGo_models_super _ _ x mem_addS_self
    · refine ih x e' ?_ hnone
      rwa [lookupP_eraseP_ne hxn]

theorem setIsModelGo_none_mono (S : VisitorState) (stack : List String)
    {x : String} (h : lookupP x S.pending = none) :
    lookupP x (setIsModelGo S stack).pending = none :=
  lookupP_none_of_sublist (setIsModelGo_pending_sublist S stack) h

theorem setIsModelGo_mark_popped (S : VisitorState) (stack : List String) :
    (S.pending.map Prod.fst).Nodup →
    ∀ x, x ∈ (setIsModelGo S stack).models → x ∉ S.models →
      lookupP x (setIsModelGo S stack).pending = none := by
  induction S, stack using setIsModelGo.induct with
  | case1 S =>
    intro _ x hx hnx
    rw [setIsModelGo_nil] at hx
    exact absurd hx hnx
  | case2 S n rest h ih =>
    intro hnd x hx hnx
    rw [setIsModelGo_cons_none h] at hx ⊢
    by_cases hxn : x = n
    · subst hxn
      exact setIsModelGo_none_mono _ _ h
    · refine ih hnd x hx ?_
      intro hmem
      rcases mem_addS.mp hmem with rfl | hmem
      · exact hxn rfl
      · exact hnx hmem
  | case3 S n rest e h ih =>
    intro hnd x hx hnx
    rw [setIsModelGo_cons_some h] at hx ⊢
    by_cases hxn : x = n
    · subst hxn
      exact setIsModelGo_none_mono _ _ (lookupP_eraseP_self hnd)
    · refine ih (eraseP_keys_nodup hnd) x hx ?_
      intro hmem
      rcases mem_addS.mp hmem with rfl | hmem
      · exact hxn rfl
      · exact hnx hmem

theorem setIsModelGo_stack_popped (S : VisitorState) (stack : List String) :
    (S.pending.map Prod.fst).Nodup →
    ∀ y ∈ stack, lookupP y (setIsModelGo S stack).pending = none := by
  induction S, stack using setIsModelGo.induct with
  | case1 S => intro _ y hy; cases hy
  | case2 S n rest h ih =>
    intro hnd y hy
    rw [setIsModelGo_cons_none h]
    rcases List.mem_cons.mp hy with rfl | hy
    · exact setIsModelGo_none_mono _ _ h
    · exact ih hnd y hy
  | case3 S n rest e h ih =>
    intro hnd y hy
    rw [setIsModelGo_cons_some h]
    rcases List.mem_cons.mp hy with rfl | hy
    · exact setIsModelGo_none_mono _ _ (lookupP_eraseP_self hnd)
    · exact ih (eraseP_keys_nodup hnd) y (List.mem_append_right _ hy)

theorem setIsModelGo_new_marked_subs (S : VisitorState) (stack : List String) :
    (S.pending.map Prod.fst).Nodup →
    ∀ x ex, x ∈ (setIsModelGo S stack).models → x ∉ S.models →
      lookupP x S.pending = some ex →
      ∀ y ∈ ex.subclasses, y ∈ (setIsModelGo S stack).models := by
  induction S, stack using setIsModelGo.induct with
  | case1 S =>
    intro _ x ex hx hnx _ _ _
    rw [setIsModelGo_nil] at hx
    exact absurd hx hnx
  | case2 S n rest h ih =>
    intro hnd x ex hx hnx hlook y hy
    rw [setIsModelGo_cons_none h] at hx ⊢
    by_cases hxn : x = n
    · subst hxn
      rw [h] at hlook
      cases hlook
    · refine ih hnd x ex hx ?_ hlook y hy
      intro hmem
      rcases mem_addS.mp hmem with rfl | hmem
      · exact hxn rfl
      · exact hnx hmem
  | case3 S n rest e h ih =>
    intro hnd x ex hx hnx hlook y hy
    rw [setIsModelGo_cons_some h] at hx ⊢
    by_cases hxn : x = n
    · subst hxn
      rw [h] at hlook
      cases hlook
      exact setIsModelGo_stack_marked _ _ y (List.mem_append_left _ hy)
    · refine ih (eraseP_keys_nodup hnd) x ex hx ?_ ?_ y hy
      · intro hmem
        rcases mem_addS.mp hmem with rfl | hmem
        · exact hxn rfl
        · exact hnx hmem
      · rwa [lookupP_eraseP_ne hxn]

theorem setIsModelGo_new_marked_subs_popped (S : VisitorState) (stack : List String) :
    (S.pending.map Prod.fst).Nodup →
    ∀ x ex, x ∈ (setIsModelGo S stack).models → x ∉ S.models →
      lookupP x S.pending = some ex →
      ∀ y ∈ ex.subclasses, lookupP y (setIsModelGo S stack).pending = none := by
  induction S, stack using setIsModelGo.induct with
  | case1 S =>
    intro _ x ex hx hnx _ _ _
    rw [setIsModelGo_nil] at hx
    exact absurd hx hnx
  | case2 S n rest h ih =>
    intro hnd x ex hx hnx hlook y hy
    rw [setIsModelGo_cons_none h] at hx ⊢
    by_cases hxn : x = n
    · subst hxn
      rw [h] at hlook
      cases hlook
    · refine ih hnd x ex hx ?_ hlook y hy
      intro hmem
      rcases mem_addS.mp hmem with rfl | hmem
      · exact hxn rfl
      · exact hnx hmem
  | case3 S n rest e h ih =>
    intro hnd x ex hx hnx hlook y hy
    rw [setIsModelGo_cons_some h] at hx ⊢
    by_cases hxn : x = n
    · subst hxn
      rw [h] at hlook
      cases hlook
      exact setIsModelGo_stack_popped _ _ (eraseP_keys_nodup hnd) y
        (List.mem_append_left _ hy)
    · refine ih (eraseP_keys_nodup hnd) x ex hx ?_ ?_ y hy
      · intro hmem
        rcases mem_addS.mp hmem with rfl | hmem
        · exact hxn rfl
        · exact hnx hmem
      · rwa [lookupP_eraseP_ne hxn]

theorem setIsModelGo_popped_cases (S : VisitorState) (stack : List String) :
    (S.pending.map Prod.fst).Nodup →
    ∀ x, lookupP x (setIsModelGo S stack).pending = none →
      lookupP x S.pending = none ∨ x ∈ stack ∨
        ∃ k ek, lookupP k S.pending = some ek ∧ x ∈ ek.subclasses ∧
          k ∈ (setIsModelGo S stack).models := by
  induction S, stack using setIsModelGo.induct with
  | case1 S =>
    intro _ x hx
    rw [setIsModelGo_nil] at hx
    exact Or.inl hx
  | case2 S n rest h ih =>
    intro hnd x hx
    rw [setIsModelGo_cons_none h] at hx ⊢
    rcases ih hnd x hx with h1 | h2 | ⟨k, ek, hk, hxk, hkm⟩
    · exact Or.inl h1
    · exact Or.inr (Or.inl (List.mem_cons_of_mem _ h2))
    · exact Or.inr (Or.inr ⟨k, ek, hk, hxk, hkm⟩)
  | case3 S n rest e h ih =>
    intro hnd x hx
    rw [setIsModelGo_cons_some h] at hx ⊢
    rcases ih (eraseP_keys_nodup hnd) x hx with h1 | h2 | ⟨k, ek, hk, hxk, hkm⟩
    · by_cases hxn : x = n
      · exact Or.inr (Or.inl (hxn ▸ List.mem_cons_self _ _))
      · rw [lookupP_eraseP_ne hxn] at h1
        exact Or.inl h1
    · rcases List.mem_append.mp h2 with h2 | h2
      · refine Or.inr (Or.inr ⟨n, e, h, h2, ?_⟩)
        exact setIsModelGo_models_super _ _ n mem_addS_self
      · exact Or.inr (Or.inl (List.mem_cons_of_mem _ h2))
    · refine Or.inr (Or.inr ⟨k, ek, lookupP_eraseP_some hnd hk, hxk, hkm⟩)

/-! Lemmas about the `_setIsNotModel` cascade. -/

theorem setIsNotModelGo_nil (S : VisitorState) : setIsNotModelGo S [] = S := by
  simp [setIsNotModelGo]

theorem setIsNotModelGo_done (S : VisitorState) (p : String)
    (frames : List (String × List String)) :
    setIsNotModelGo S ((p, []) :: frames) = setIsNotModelGo S frames := by
  simp [setIsNotModelGo]

theorem setIsNotModelGo_none {S : VisitorState} {p sub : String} {rest : List String}
    {frames : List (String × List String)} (h : lookupP sub S.pending = none) :
    setIsNotModelGo S ((p, sub :: rest) :: frames) =
      setIsNotModelGo S ((p, rest) :: frames) := by
  rw [setIsNotModelGo.eq_3]
  split
  · rfl
  · next e h' => rw [h] at h'; cases h'

theorem setIsNotModelGo_mark {S : VisitorState} {p sub : String} {rest : List String}
    {frames : List (String × List String)} {e : PendingClass}
    (h : lookupP sub S.pending = some e)
    (hpb : e.pending_bases.filter (fun b => decide (b ≠ p)) = []) :
    setIsNotModelGo S ((p, sub :: rest) :: frames) =
      setIsNotModelGo
        { S with non_models := addS sub S.non_models, pending := eraseP sub S.pending }
        ((sub, e.subclasses) :: (p, rest) :: frames) := by
  rw [setIsNotModelGo.eq_3]
  split
  · next h' => rw [h] at h'; cases h'
  · next e' h' =>
    rw [h] at h'
    cases h'
    change (if List.filter (fun b => decide (b ≠ p)) e.pending_bases = [] then _ else _) = _
    rw [if_pos hpb]

theorem setIsNotModelGo_upd {S : VisitorState} {p sub : String} {rest : List String}
    {frames : List (String × List String)} {e : PendingClass}
    (h : lookupP sub S.pending = some e)
    (hpb : e.pending_bases.filter (fun b => decide (b ≠ p)) ≠ []) :
    setIsNotModelGo S ((p, sub :: rest) :: frames) =
      setIsNotModelGo
        { S with pending := updPB sub (e.pending_bases.filter (fun b => decide (b ≠ p))) S.pending }
        ((p, rest) :: frames) := by
  rw [setIsNotModelGo.eq_3]
  split
  · next h' => rw [h] at h'; cases h'
  · next e' h' =>
    rw [h] at h'
    cases h'
    change (if List.filter (fun b => decide (b ≠ p)) e.pending_bases = [] then _ else _) = _
    rw [if_neg hpb]

theorem setIsNotModelGo_models (S : VisitorState) (F : List (String × List String)) :
    (setIsNotModelGo S F).models = S.models := by
  induction S, F using setIsNotModelGo.induct with
  | case1 S => rw [setIsNotModelGo_nil]
  | case2 S p frames ih => rw [setIsNotModelGo_done]; exact ih
  | case3 S p sub rest frames h ih => rw [setIsNotModelGo_none h]; exact ih
  | case4 S p sub rest frames e h pb' hpb ih =>
    rw [setIsNotModelGo_mark h hpb]
    exact ih
  | case5 S p sub rest frames e h pb' hpb ih =>
    rw [setIsNotModelGo_upd h hpb]
    exact ih

theorem setIsNotModelGo_non_super (S : VisitorState) (F : List (String × List String)) :
    ∀ x ∈ S.non_models, x ∈ (setIsNotModelGo S F).non_models := by
  induction S, F using setIsNotModelGo.induct with
  | case1 S => rw [setIsNotModelGo_nil]; exact fun x hx => hx
  | case2 S p frames ih => rw [setIsNotModelGo_done]; exact ih
  | case3 S p sub rest frames h ih => rw [setIsNotModelGo_none h]; exact ih
  | case4 S p sub rest frames e h pb' hpb ih =>
    rw [setIsNotModelGo_mark h hpb]
    exact fun x hx => ih x (mem_addS_of_mem hx)
  | case5 S p sub rest frames e h pb' hpb ih =>
    rw [setIsNotModelGo_upd h hpb]
    exact ih

theorem setIsNotModelGo_none_mono (S : VisitorState) (F : List (String × List String)) :
    ∀ x, lookupP x S.pending = none →
      lookupP x (setIsNotModelGo S F).pending = none := by
  induction S, F using setIsNotModelGo.induct with
  | case1 S => intro x hx; rw [setIsNotModelGo_nil]; exact hx
  | case2 S p frames ih => intro x hx; rw [setIsNotModelGo_done]; exact ih x hx
  | case3 S p sub rest frames h ih =>
    intro x hx
    rw [setIsNotModelGo_none h]
    exact ih x hx
  | case4 S p sub rest frames e h pb' hpb ih =>
    intro x hx
    rw [setIsNotModelGo_mark h hpb]
    refine ih x ?_
    exact lookupP_none_of_sublist (eraseP_sublist _ _) hx
  | case5 S p sub rest frames e h pb' hpb ih =>
    intro x hx
    rw [setIsNotModelGo_upd h hpb]
    refine ih x ?_
    have hxs : x ≠ sub := by
      intro hq
      rw [hq, h] at hx
      cases hx
    rwa [lookupP_updPB_ne hxs]

theorem setIsNotModelGo_popped_marked (S : VisitorState) (F : List (String × List String)) :
    ∀ x, (lookupP x S.pending).isSome →
      lookupP x (setIsNotModelGo S F).pending = none →
      x ∈ (setIsNotModelGo S F).non_models := by
  induction S, F using setIsNotModelGo.induct with
  | case1 S =>
    intro x hx hnone
    rw [setIsNotModelGo_nil] at hnone ⊢
    rw [hnone] at hx
    cases hx
  | case2 S p frames ih =>
    intro x hx hnone
    rw [setIsNotModelGo_done] at hnone ⊢
    exact ih x hx hnone
  | case3 S p sub rest frames h ih =>
    intro x hx hnone
    rw [setIsNotModelGo_none h] at hnone ⊢
    exact ih x hx hnone
  | case4 S p sub rest frames e h pb' hpb ih =>
    intro x hx hnone
    rw [setIsNotModelGo_mark h hpb] at hnone ⊢
    by_cases hxs : x = sub
    · subst hxs
      exact setIsNotModelGo_non_super _ _ x mem_addS_self
    · refine ih x ?_ hnone
      rwa [lookupP_eraseP_ne hxs]
  | case5 S p sub rest frames e h pb' hpb ih =>
    intro x hx hnone
    rw [setIsNotModelGo_upd h hpb] at hnone ⊢
    by_cases hxs : x = sub
    · subst hxs
      refine ih x ?_ hnone
      rw [lookupP_updPB_self h]
      rfl
    · refine ih x ?_ hnone
      rwa [lookupP_updPB_ne hxs]

theorem setIsNotModelGo_mark_exhausts (S : VisitorState)
    (F : List (String × List String)) :
    (∀ p l, (p, l) ∈ F → p ∈ S.non_models) →
    ∀ x ex, lookupP x S.pending = some ex →
      x ∈ (setIsNotModelGo S F).non_models →
      x ∈ S.non_models ∨
        ∀ b ∈ ex.pending_bases, b ∈ (setIsNotModelGo S F).non_models := by
  induction S, F using setIsNotModelGo.induct with
  | case1 S =>
    intro _ x ex hx hmem
    rw [setIsNotModelGo_nil] at hmem
    exact Or.inl hmem
  | case2 S q frames ih =>
    intro hpar x ex hx hmem
    rw [setIsNotModelGo_done] at hmem ⊢
    exact ih (fun p l hpl => hpar p l (List.mem_cons_of_mem _ hpl)) x ex hx hmem
  | case3 S q sub rest frames h ih =>
    intro hpar x ex hx hmem
    rw [setIsNotModelGo_none h] at hmem ⊢
    refine ih ?_ x ex hx hmem
    intro p l hpl
    rcases List.mem_cons.mp hpl with heq | hpl
    · cases heq
      exact hpar q (sub :: rest) (List.mem_cons_self _ _)
    · exact hpar p l (List.mem_cons_of_mem _ hpl)
  | case4 S q sub rest frames e h pb' hpb ih =>
    intro hpar x ex hx hmem
    rw [setIsNotModelGo_mark h hpb] at hmem ⊢
    have hq : q ∈ S.non_models := hpar q (sub :: rest) (List.mem_cons_self _ _)
    have hpar' : ∀ p l, (p, l) ∈ (sub, e.subclasses) :: (q, rest) :: frames →
        p ∈ addS sub S.non_models := by
      intro p l hpl
      rcases List.mem_cons.mp hpl with heq | hpl
      · cases heq
        exact mem_addS_self
      · rcases List.mem_cons.mp hpl with heq | hpl
        · cases heq
          exact mem_addS_of_mem hq
        · exact mem_addS_of_mem (hpar p l (List.mem_cons_of_mem _ hpl))
    by_cases hxs : x = sub
    · subst hxs
      rw [h] at hx
      cases hx
      refine Or.inr ?_
      intro b hb
      have hbq : b = q := by
        have hnn := List.filter_eq_nil_iff.mp hpb b hb
        simpa using hnn
      subst hbq
      exact setIsNotModelGo_non_super _ _ b (mem_addS_of_mem hq)
    · rcases ih hpar' x ex (by rwa [lookupP_eraseP_ne hxs]) hmem with hL | hR
      · rcases mem_addS.mp hL with rfl | hL
        · exact absurd rfl hxs
        · exact Or.inl hL
      · exact Or.inr hR
  | case5 S q sub rest frames e h pb' hpb ih =>
    intro hpar x ex hx hmem
    rw [setIsNotModelGo_upd h hpb] at hmem ⊢
    have hq : q ∈ S.non_models := hpar q (sub :: rest) (List.mem_cons_self _ _)
    have hpar' : ∀ p l, (p, l) ∈ (q, rest) :: frames →
        p ∈ S.non_models := by
      intro p l hpl
      rcases List.mem_cons.mp hpl with heq | hpl
      · cases heq
        exact hq
      · exact hpar p l (List.mem_cons_of_mem _ hpl)
    by_cases hxs : x = sub
    · subst hxs
      rw [h] at hx
      cases hx
      rcases ih hpar' x _ (lookupP_updPB_self h) hmem with hL | hR
      · exact Or.inl hL
      · refine Or.inr ?_
        intro b hb
        by_cases hbq : b = q
        · subst hbq
          exact setIsNotModelGo_non_super _ _ b hq
        · refine hR b ?_
          show b ∈ List.filter (fun c => decide (c ≠ q)) e.pending_bases
          simp only [List.mem_filter]
          exact ⟨hb, by simpa using hbq⟩
    · rcases ih hpar' x ex (by rwa [lookupP_updPB_ne hxs]) hmem with hL | hR
      · exact Or.inl hL
      · exact Or.inr hR

theorem setIsNotModelGo_coupling (S : VisitorState)
    (F : List (String × List String)) :
    (S.pending.map Prod.fst).Nodup →
    (∀ p l, (p, l) ∈ F → p ∈ S.non_models) →
    ∀ x e', lookupP x (setIsNotModelGo S F).pending = some e' →
      ∃ e, lookupP x S.pending = some e ∧ e'.subclasses = e.subclasses ∧
        (∀ b ∈ e'.pending_bases, b ∈ e.pending_bases) ∧
        (∀ b ∈ e.pending_bases, b ∉ e'.pending_bases →
          b ∈ (setIsNotModelGo S F).non_models) := by
  induction S, F using setIsNotModelGo.induct with
  | case1 S =>
    intro _ _ x e' hx
    rw [setIsNotModelGo_nil] at hx ⊢
    exact ⟨e', hx, rfl, fun b hb => hb, fun b hb hnb => absurd hb hnb⟩
  | case2 S q frames ih =>
    intro hnd hpar x e' hx
    rw [setIsNotModelGo_done] at hx ⊢
    exact ih hnd (fun p l hpl => hpar p l (List.mem_cons_of_mem _ hpl)) x e' hx
  | case3 S q sub rest frames h ih =>
    intro hnd hpar x e' hx
    rw [setIsNotModelGo_none h] at hx ⊢
    refine ih hnd ?_ x e' hx
    intro p l hpl
    rcases List.mem_cons.mp hpl with heq | hpl
    · cases heq
      exact hpar q (sub :: rest) (List.mem_cons_self _ _)
    · exact hpar p l (List.mem_cons_of_mem _ hpl)
  | case4 S q sub rest frames e h pb' hpb ih =>
    intro hnd hpar x e' hx
    rw [setIsNotModelGo_mark h hpb] at hx ⊢
    have hq : q ∈ S.non_models := hpar q (sub :: rest) (List.mem_cons_self _ _)
    have hpar' : ∀ p l, (p, l) ∈ (sub, e.subclasses) :: (q, rest) :: frames →
        p ∈ addS sub S.non_models := by
      intro p l hpl
      rcases List.mem_cons.mp hpl with heq | hpl
      · cases heq
        exact mem_addS_self
      · rcases List.mem_cons.mp hpl with heq | hpl
        · cases heq
          exact mem_addS_of_mem hq
        · exact mem_addS_of_mem (hpar p l (List.mem_cons_of_mem _ hpl))
    rcases ih (eraseP_keys_nodup hnd) hpar' x e' hx with ⟨e₀, hlook₀, hsub₀, hpb₀, hrem₀⟩
    exact ⟨e₀, lookupP_eraseP_some hnd hlook₀, hsub₀, hpb₀, hrem₀⟩
  | case5 S q sub rest frames e h pb' hpb ih =>
    intro hnd hpar x e' hx
    rw [setIsNotModelGo_upd h hpb] at hx ⊢
    have hq : q ∈ S.non_models := hpar q (sub :: rest) (List.mem_cons_self _ _)
    have hnd' : ((updPB sub (e.pending_bases.filter (fun b => decide (b ≠ q))) S.pending).map
        Prod.fst).Nodup := by
      rw [updPB_keys]
      exact hnd
    have hpar' : ∀ p l, (p, l) ∈ (q, rest) :: frames → p ∈ S.non_models := by
      intro p l hpl
      rcases List.mem_cons.mp hpl with heq | hpl
      · cases heq
        exact hq
      · exact hpar p l (List.mem_cons_of_mem _ hpl)
    rcases ih hnd' hpar' x e' hx with ⟨e₀, hlook₀, hsub₀, hpb₀, hrem₀⟩
    by_cases hxs : x = sub
    · subst hxs
      rw [lookupP_updPB_self h] at hlook₀
      cases hlook₀
      refine ⟨e, h, hsub₀, ?_, ?_⟩
      · intro b hb
        have h2 : b ∈ List.filter (fun c => decide (c ≠ q)) e.pending_bases := hpb₀ b hb
        simp only [List.mem_filter] at h2
        exact h2.1
      · intro b hb hnb
        by_cases hbq : b = q
        · subst hbq
          exact setIsNotModelGo_non_super _ _ b hq
        · refine hrem₀ b ?_ hnb
          show b ∈ List.filter (fun c => decide (c ≠ q)) e.pending_bases
          simp only [List.mem_filter]
          exact ⟨hb, by simpa using hbq⟩
    · rw [lookupP_updPB_ne hxs] at hlook₀
      exact ⟨e₀, hlook₀, hsub₀, hpb₀, hrem₀⟩

theorem setIsNotModelGo_frame_discard (S : VisitorState)
    (F : List (String × List String)) :
    (S.pending.map Prod.fst).Nodup →
    (∀ p l, (p, l) ∈ F → p ∈ S.non_models) →
    ∀ p l, (p, l) ∈ F → ∀ x ∈ l, ∀ e',
      lookupP x (setIsNotModelGo S F).pending = some e' →
      p ∉ e'.pending_bases := by
  induction S, F using setIsNotModelGo.induct with
  | case1 S =>
    intro _ _ p l hpl
    cases hpl
  | case2 S q frames ih =>
    intro hnd hpar p l hpl x hx e' hlook
    rw [setIsNotModelGo_done] at hlook
    rcases List.mem_cons.mp hpl with heq | hpl
    · cases heq
      cases hx
    · exact ih hnd (fun p' l' hp' => hpar p' l' (List.mem_cons_of_mem _ hp'))
        p l hpl x hx e' hlook
  | case3 S q sub rest frames h ih =>
    intro hnd hpar p l hpl x hx e' hlook
    rw [setIsNotModelGo_none h] at hlook
    have hpar' : ∀ p' l', (p', l') ∈ (q, rest) :: frames → p' ∈ S.non_models := by
      intro p' l' hp'
      rcases List.mem_cons.mp hp' with heq | hp'
      · cases heq
        exact hpar q (sub :: rest) (List.mem_cons_self _ _)
      · exact hpar p' l' (List.mem_cons_of_mem _ hp')
    rcases List.mem_cons.mp hpl with heq | hpl
    · cases heq
      rcases List.mem_cons.mp hx with rfl | hx
      · rw [setIsNotModelGo_none_mono _ _ x h] at hlook
        cases hlook
      · exact ih hnd hpar' q rest (List.mem_cons_self _ _) x hx e' hlook
    · exact ih hnd hpar' p l (List.mem_cons_of_mem _ hpl) x hx e' hlook
  | case4 S q sub rest frames e h pb' hpb ih =>
    intro hnd hpar p l hpl x hx e' hlook
    rw [setIsNotModelGo_mark h hpb] at hlook
    have hq : q ∈ S.non_models := hpar q (sub :: rest) (List.mem_cons_self _ _)
    have hnd' := eraseP_keys_nodup (k := sub) hnd
    have hpar' : ∀ p' l', (p', l') ∈ (sub, e.subclasses) :: (q, rest) :: frames →
        p' ∈ addS sub S.non_models := by
      intro p' l' hp'
      rcases List.mem_cons.mp hp' with heq | hp'
      · cases heq
        exact mem_addS_self
      · rcases List.mem_cons.mp hp' with heq | hp'
        · cases heq
          exact mem_addS_of_mem hq
        · exact mem_addS_of_mem (hpar p' l' (List.mem_cons_of_mem _ hp'))
    rcases List.mem_cons.mp hpl with heq | hpl
    · cases heq
      rcases List.mem_cons.mp hx with rfl | hx
      · rw [setIsNotModelGo_none_mono _ _ x (lookupP_eraseP_self hnd)] at hlook
        cases hlook
      · exact ih hnd' hpar' q rest (List.mem_cons_of_mem _ (List.mem_cons_self _ _))
          x hx e' hlook
    · exact ih hnd' hpar' p l
        (List.mem_cons_of_mem _ (List.mem_cons_of_mem _ hpl)) x hx e' hlook
  | case5 S q sub rest frames e h pb' hpb ih =>
    intro hnd hpar p l hpl x hx e' hlook
    rw [setIsNotModelGo_upd h hpb] at hlook
    have hq : q ∈ S.non_models := hpar q (sub :: rest) (List.mem_cons_self _ _)
    have hnd' : ((updPB sub (e.pending_bases.filter (fun b => decide (b ≠ q))) S.pending).map
        Prod.fst).Nodup := by
      rw [updPB_keys]
      exact hnd
    have hpar' : ∀ p' l', (p', l') ∈ (q, rest) :: frames → p' ∈ S.non_models := by
      intro p' l' hp'
      rcases List.mem_cons.mp hp' with heq | hp'
      · cases heq
        exact hq
      · exact hpar p' l' (List.mem_cons_of_mem _ hp')
    have hpar'' : ∀ p' l', (p', l') ∈ (q, rest) :: frames →
        p' ∈ ({ S with pending := updPB sub (e.pending_bases.filter (fun b => decide (b ≠ q))) S.pending } : VisitorState).non_models :=
      hpar'
    rcases List.mem_cons.mp hpl with heq | hpl
    · cases heq
      rcases List.mem_cons.mp hx with rfl | hx
      · rcases setIsNotModelGo_coupling _ _ hnd' hpar'' x e' hlook with
          ⟨e₀, hlook₀, _, hpb₀, _⟩
        rw [lookupP_updPB_self h] at hlook₀
        cases hlook₀
        intro hqin
        have h2 : q ∈ List.filter (fun c => decide (c ≠ q)) e.pending_bases := hpb₀ q hqin
        simp only [List.mem_filter] at h2
        simpa using h2.2
      · exact ih hnd' hpar' q rest (List.mem_cons_self _ _) x hx e' hlook
    · exact ih hnd' hpar' p l (List.mem_cons_of_mem _ hpl) x hx e' hlook

theorem setIsNotModelGo_ctx {O : List Decl} {S : VisitorState} {m : String}
    {bs : List String} (hInv : Inv O S) (hfresh : m ∉ O.map Prod.fst)
    (hMemEq : ∀ x, Mem (O ++ [(m, bs)]) x ↔ Mem O x) :
    ∀ (T : VisitorState) (F : List (String × List String)),
      NotCtx O S m bs T F → NotCtx O S m bs (setIsNotModelGo T F) [] := by
  intro T F
  induction T, F using setIsNotModelGo.induct with
  | case1 T =>
    intro hctx
    rw [setIsNotModelGo_nil]
    exact hctx
  | case2 T q frames ih =>
    intro hctx
    rw [setIsNotModelGo_done]
    refine ih { hctx with frames_ok := ?_, edge := ?_ }
    · intro p l hpl
      exact hctx.frames_ok p l (List.mem_cons_of_mem _ hpl)
    · intro x ex b hx hb
      rcases hctx.edge x ex b hx hb with h1 | ⟨l, hl, hxl⟩
      · exact Or.inl h1
      · rcases List.mem_cons.mp hl with heq | hl
        · cases heq
          cases hxl
        · exact Or.inr ⟨l, hl, hxl⟩
  | case3 T q sub rest frames h ih =>
    intro hctx
    rw [setIsNotModelGo_none h]
    refine ih { hctx with frames_ok := ?_, edge := ?_ }
    · intro p l hpl
      rcases List.mem_cons.mp hpl with heq | hpl
      · cases heq
        rcases hctx.frames_ok q (sub :: rest) (List.mem_cons_self _ _) with ⟨h1, h2, h3⟩
        exact ⟨h1, h2, fun x hx => h3 x (List.mem_cons_of_mem _ hx)⟩
      · exact hctx.frames_ok p l (List.mem_cons_of_mem _ hpl)
    · intro x ex b hx hb
      rcases hctx.edge x ex b hx hb with h1 | ⟨l, hl, hxl⟩
      · exact Or.inl h1
      · rcases List.mem_cons.mp hl with heq | hl
        · cases heq
          rcases List.mem_cons.mp hxl with rfl | hxl
          · rw [h] at hx
            cases hx
          · exact Or.inr ⟨rest, List.mem_cons_self _ _, hxl⟩
        · exact Or.inr ⟨l, List.mem_cons_of_mem _ hl, hxl⟩
  | case4 T q sub rest frames e h pb' hpb ih =>
    intro hctx
    rw [setIsNotModelGo_mark h hpb]
    obtain ⟨hqnon, hqnone, hqlist⟩ :=
      hctx.frames_ok q (sub :: rest) (List.mem_cons_self _ _)
    obtain ⟨ep, hepS, hsubin⟩ := hqlist sub (List.mem_cons_self _ _)
    obtain ⟨bsx, hdecl, hqbs⟩ := hInv.subs_upper q ep sub hepS hsubin
    obtain ⟨eS, heS, hsubeq, hpbsub, hrem⟩ := hctx.coup sub e h
    have hallq : ∀ b ∈ e.pending_bases, b = q := by
      intro b hb
      have hnn := List.filter_eq_nil_iff.mp hpb b hb
      simpa using hnn
    have hnonmem_sub : NonMem (O ++ [(m, bs)]) sub := by
      refine NonMem.intro (List.mem_append_left _ hdecl) ?_ ?_
      · intro b hb hM
        exact hInv.key_bases_not_mem sub eS bsx heS hdecl b hb ((hMemEq b).mp hM)
      · intro b hb
        by_cases hbS : b ∈ eS.pending_bases
        · by_cases hbe : b ∈ e.pending_bases
          · have hbq := hallq b hbe
            subst hbq
            exact hctx.non_sound b hqnon
          · exact hctx.non_sound b (hrem b hbS hbe)
        · have hNb : NonMem O b := by
            by_contra hnb
            exact hbS ((hInv.pb_iff sub eS heS b).mpr
              ⟨bsx, hdecl, hb, hInv.key_bases_not_mem sub eS bsx heS hdecl b hb, hnb⟩)
          exact nonmem_append_one hInv.onodup hfresh hNb
    refine ih ?_
    refine
      { models_eq := hctx.models_eq
        non_sound := ?_
        non_super := fun n hn => mem_addS_of_mem (hctx.non_super n hn)
        m_marked := mem_addS_of_mem hctx.m_marked
        coup := ?_
        keys_sub := ?_
        knodupT := eraseP_keys_nodup hctx.knodupT
        frames_ok := ?_
        edge := ?_
        empty_pb := ?_
        pops_marked := ?_
        non_no_key := ?_ }
    · intro n hn
      rcases mem_addS.mp hn with rfl | hn
      · exact hnonmem_sub
      · exact hctx.non_sound n hn
    · intro x e' hx
      have hxT : lookupP x T.pending = some e' := lookupP_eraseP_some hctx.knodupT hx
      rcases hctx.coup x e' hxT with ⟨e₀, h1, h2, h3, h4⟩
      exact ⟨e₀, h1, h2, h3, fun b hb hnb => mem_addS_of_mem (h4 b hb hnb)⟩
    · intro x hx
      exact lookupP_none_of_sublist (eraseP_sublist _ _) (hctx.keys_sub x hx)
    · intro p l hpl
      rcases List.mem_cons.mp hpl with heq | hpl
      · cases heq
        refine ⟨mem_addS_self, lookupP_eraseP_self hctx.knodupT, ?_⟩
        intro x hx
        exact ⟨eS, heS, hsubeq ▸ hx⟩
      · rcases List.mem_cons.mp hpl with heq | hpl
        · cases heq
          refine ⟨mem_addS_of_mem hqnon,
            lookupP_none_of_sublist (eraseP_sublist _ _) hqnone, ?_⟩
          intro x hx
          exact hqlist x (List.mem_cons_of_mem _ hx)
        · rcases hctx.frames_ok p l (List.mem_cons_of_mem _ hpl) with ⟨h1, h2, h3⟩
          exact ⟨mem_addS_of_mem h1,
            lookupP_none_of_sublist (eraseP_sublist _ _) h2, h3⟩
    · intro x ex b hx hb
      have hxs : x ≠ sub := by
        intro hq
        subst hq
        rw [lookupP_eraseP_self hctx.knodupT] at hx
        cases hx
      have hxT : lookupP x T.pending = some ex := lookupP_eraseP_some hctx.knodupT hx
      rcases hctx.edge x ex b hxT hb with ⟨eb, hebT, hxeb⟩ | ⟨l, hbl, hxl⟩
      · by_cases hbsub : b = sub
        · subst hbsub
          rw [h] at hebT
          cases hebT
          exact Or.inr ⟨e.subclasses, List.mem_cons_self _ _, hxeb⟩
        · rw [← lookupP_eraseP_ne hbsub] at hebT
          exact Or.inl ⟨eb, hebT, hxeb⟩
      · rcases List.mem_cons.mp hbl with heq | hbl
        · cases heq
          rcases List.mem_cons.mp hxl with rfl | hxl
          · exact absurd rfl hxs
          · exact Or.inr ⟨rest, List.mem_cons_of_mem _ (List.mem_cons_self _ _), hxl⟩
        · exact Or.inr ⟨l, List.mem_cons_of_mem _ (List.mem_cons_of_mem _ hbl), hxl⟩
    · intro x ex hx hemp
      exact hctx.empty_pb x ex (lookupP_eraseP_some hctx.knodupT hx) hemp
    · intro x hxsome hxnone
      cases hT : lookupP x T.pending with
      | none => exact mem_addS_of_mem (hctx.pops_marked x hxsome hT)
      | some ex =>
        by_cases hxs : x = sub
        · subst hxs
          exact mem_addS_self
        · rw [lookupP_eraseP_ne hxs, hT] at hxnone
          cases hxnone
    · intro b hb
      rcases mem_addS.mp hb with rfl | hb
      · exact lookupP_eraseP_self hctx.knodupT
      · exact lookupP_none_of_sublist (eraseP_sublist _ _) (hctx.non_no_key b hb)
  | case5 T q sub rest frames e h pb' hpb ih =>
    intro hctx
    rw [setIsNotModelGo_upd h hpb]
    obtain ⟨hqnon, hqnone, hqlist⟩ :=
      hctx.frames_ok q (sub :: rest) (List.mem_cons_self _ _)
    have hqsub : q ≠ sub := by
      intro hq
      rw [hq, h] at hqnone
      cases hqnone
    have hsubup : lookupP sub (updPB sub (e.pending_bases.filter
        (fun c => decide (c ≠ q))) T.pending) =
        some ⟨e.pending_bases.filter (fun c => decide (c ≠ q)), e.subclasses⟩ :=
      lookupP_updPB_self h
    refine ih ?_
    refine
      { models_eq := hctx.models_eq
        non_sound := hctx.non_sound
        non_super := hctx.non_super
        m_marked := hctx.m_marked
        coup := ?_
        keys_sub := ?_
        knodupT := by rw [updPB_keys]; exact hctx.knodupT
        frames_ok := ?_
        edge := ?_
        empty_pb := ?_
        pops_marked := ?_
        non_no_key := ?_ }
    · intro x e' hx
      by_cases hxs : x = sub
      · subst hxs
        rw [hsubup] at hx
        cases hx
        rcases hctx.coup x e h with ⟨eS, heS, hsubeq, hpbsub, hrem⟩
        refine ⟨eS, heS, hsubeq, ?_, ?_⟩
        · intro b hb
          have hb2 : b ∈ e.pending_bases := by
            have := List.mem_filter.mp hb
            exact this.1
          exact hpbsub b hb2
        · intro b hb hnb
          by_cases hbe : b ∈ e.pending_bases
          · by_cases hbq : b = q
            · subst hbq
              exact hqnon
            · exfalso
              apply hnb
              refine List.mem_filter.mpr ⟨hbe, ?_⟩
              simpa using hbq
          · exact hrem b hb hbe
      · rw [lookupP_updPB_ne hxs] at hx
        exact hctx.coup x e' hx
    · intro x hx
      have hT := hctx.keys_sub x hx
      have hxs : x ≠ sub := by
        intro hq
        rw [hq, h] at hT
        cases hT
      rw [lookupP_updPB_ne hxs]
      exact hT
    · intro p l hpl
      rcases List.mem_cons.mp hpl with heq | hpl
      · cases heq
        have hps : q ≠ sub := hqsub
        refine ⟨hqnon, ?_, fun x hx => hqlist x (List.mem_cons_of_mem _ hx)⟩
        rw [lookupP_updPB_ne hps]
        exact hqnone
      · rcases hctx.frames_ok p l (List.mem_cons_of_mem _ hpl) with ⟨h1, h2, h3⟩
        have hps : p ≠ sub := by
          intro hq
          rw [hq, h] at h2
          cases h2
        refine ⟨h1, ?_, h3⟩
        rw [lookupP_updPB_ne hps]
        exact h2
    · intro x ex' b hx hb
      by_cases hxs : x = sub
      · subst hxs
        rw [hsubup] at hx
        cases hx
        have hbe : b ∈ e.pending_bases := (List.mem_filter.mp hb).1
        have hbq : b ≠ q := by
          have := (List.mem_filter.mp hb).2
          simpa using this
        rcases hctx.edge x e b h hbe with ⟨eb, hebT, hxeb⟩ | ⟨l, hbl, hxl⟩
        · by_cases hbsub : b = x
          · subst hbsub
            rw [h] at hebT
            cases hebT
            exact Or.inl ⟨_, hsubup, hxeb⟩
          · rw [← lookupP_updPB_ne hbsub] at hebT
            exact Or.inl ⟨eb, hebT, hxeb⟩
        · rcases List.mem_cons.mp hbl with heq | hbl
          · cases heq
            exact absurd rfl hbq
          · exact Or.inr ⟨l, List.mem_cons_of_mem _ hbl, hxl⟩
      · rw [lookupP_updPB_ne hxs] at hx
        rcases hctx.edge x ex' b hx hb with ⟨eb, hebT, hxeb⟩ | ⟨l, hbl, hxl⟩
        · by_cases hbsub : b = sub
          · subst hbsub
            rw [h] at hebT
            cases hebT
            exact Or.inl ⟨_, hsubup, hxeb⟩
          · rw [← lookupP_updPB_ne hbsub] at hebT
            exact Or.inl ⟨eb, hebT, hxeb⟩
        · rcases List.mem_cons.mp hbl with heq | hbl
          · cases heq
            rcases List.mem_cons.mp hxl with rfl | hxl
            · exact absurd rfl hxs
            · exact Or.inr ⟨rest, List.mem_cons_self _ _, hxl⟩
          · exact Or.inr ⟨l, List.mem_cons_of_mem _ hbl, hxl⟩
    · intro x ex' hx hemp
      by_cases hxs : x = sub
      · subst hxs
        rw [hsubup] at hx
        cases hx
        exact absurd hemp hpb
      · rw [lookupP_updPB_ne hxs] at hx
        exact hctx.empty_pb x ex' hx hemp
    · intro x hxsome hxnone
      by_cases hxs : x = sub
      · subst hxs
        rw [hsubup] at hxnone
        cases hxnone
      · rw [lookupP_updPB_ne hxs] at hxnone
        exact hctx.pops_marked x hxsome hxnone
    · intro b hb
      have hT := hctx.non_no_key b hb
      have hbs : b ≠ sub := by
        intro hq
        rw [hq, h] at hT
        cases hT
      rw [lookupP_updPB_ne hbs]
      exact hT

theorem notModel_complete {O : List Decl} {S : VisitorState} {m : String}
    {bs : List String} (hInv : Inv O S) (hfresh : m ∉ O.map Prod.fst)
    (hMemEq : ∀ x, Mem (O ++ [(m, bs)]) x ↔ Mem O x)
    {R : VisitorState} (hctx : NotCtx O S m bs R []) :
    ∀ n, NonMem (O ++ [(m, bs)]) n → n ∈ R.non_models := by
  intro n hn
  induction hn with
  | @intro n bsn hd hnm hnon ih =>
    rcases List.mem_append.mp hd with hdO | hdd
    · by_cases hNO : NonMem O n
      · exact hctx.non_super n ((hInv.non_iff n).mpr hNO)
      · have hnotmem : ∀ b ∈ bsn, ¬ Mem O b :=
          fun b hb hM => hnm b hb ((hMemEq b).mpr hM)
        have hkey := hInv.key_complete n bsn hdO hNO hnotmem
        rcases Option.isSome_iff_exists.mp hkey with ⟨eS, heS⟩
        cases hR : lookupP n R.pending with
        | none => exact hctx.pops_marked n (by rw [heS]; rfl) hR
        | some e' =>
          exfalso
          rcases hctx.coup n e' hR with ⟨eS', heS', _, hpbsub, _⟩
          have heq : eS' = eS := by
            rw [heS'] at heS
            exact Option.some.inj heS
          subst heq
          have hpbnil : e'.pending_bases = [] := by
            rw [List.eq_nil_iff_forall_not_mem]
            intro b hb
            rcases hctx.edge n e' b hR hb with ⟨eb, hebR, _⟩ | ⟨l, hl, _⟩
            · have hbS : b ∈ eS'.pending_bases := hpbsub b hb
              rcases (hInv.pb_iff n eS' heS' b).mp hbS with ⟨bs', hd', hb', _, _⟩
              have hbsn : bs' = bsn := decl_unique hInv.onodup hd' hdO
              subst hbsn
              have hbR : b ∈ R.non_models := ih b hb'
              rw [hctx.non_no_key b hbR] at hebR
              cases hebR
            · cases hl
          have hSnil := hctx.empty_pb n e' hR hpbnil eS' heS'
          have hne := (hInv.pb_nonempty_iff n eS' heS').mpr
            (List.mem_map.mpr ⟨(n, bsn), hdO, rfl⟩)
          exact hne hSnil
    · simp only [List.mem_singleton, Prod.mk.injEq] at hdd
      exact hdd.1 ▸ hctx.m_marked

theorem setIsNotModel_ctx {O : List Decl} {S : VisitorState} {m : String}
    {bs : List String} (hInv : Inv O S) (hfresh : m ∉ O.map Prod.fst)
    (hMemEq : ∀ x, Mem (O ++ [(m, bs)]) x ↔ Mem O x)
    (hNM : NonMem (O ++ [(m, bs)]) m) :
    NotCtx O S m bs (setIsNotModel m S) [] := by
  unfold setIsNotModel
  have hnonsound : ∀ n ∈ addS m S.non_models, NonMem (O ++ [(m, bs)]) n := by
    intro n hn
    rcases mem_addS.mp hn with rfl | hn
    · exact hNM
    · exact nonmem_append_one hInv.onodup hfresh ((hInv.non_iff n).mp hn)
  have hnonnokey : ∀ b ∈ S.non_models, lookupP b S.pending = none := by
    intro b hb
    cases hlb : lookupP b S.pending with
    | none => rfl
    | some eb => exact absurd ((hInv.non_iff b).mp hb) (inv_key_not_non hInv hlb)
  cases hm : lookupP m S.pending with
  | none =>
    exact
      { models_eq := rfl
        non_sound := hnonsound
        non_super := fun n hn => mem_addS_of_mem hn
        m_marked := mem_addS_self
        coup := fun x e' hx => ⟨e', hx, rfl, fun b hb => hb, fun b hb hnb => absurd hb hnb⟩
        keys_sub := fun x hx => hx
        knodupT := hInv.knodup
        frames_ok := fun p l hpl => absurd hpl (List.not_mem_nil _)
        edge := by
          intro x ex b hx hb
          rcases hInv.subs_lower x ex b hx hb with ⟨eb, hebS, hxeb⟩
          exact Or.inl ⟨eb, hebS, hxeb⟩
        empty_pb := fun x ex hx hemp e he => by
          rw [hx] at he
          cases he
          exact hemp
        pops_marked := by
          intro x hxsome hxnone
          rw [hxnone] at hxsome
          cases hxsome
        non_no_key := by
          intro b hb
          rcases mem_addS.mp hb with rfl | hb
          · exact hm
          · exact hnonnokey b hb }
  | some e =>
    refine setIsNotModelGo_ctx hInv hfresh hMemEq _ _ ?_
    exact
      { models_eq := rfl
        non_sound := hnonsound
        non_super := fun n hn => mem_addS_of_mem hn
        m_marked := mem_addS_self
        coup := by
          intro x e' hx
          have hxT : lookupP x S.pending = some e' := lookupP_eraseP_some hInv.knodup hx
          exact ⟨e', hxT, rfl, fun b hb => hb, fun b hb hnb => absurd hb hnb⟩
        keys_sub := fun x hx => lookupP_none_of_sublist (eraseP_sublist _ _) hx
        knodupT := eraseP_keys_nodup hInv.knodup
        frames_ok := by
          intro p l hpl
          rcases List.mem_cons.mp hpl with heq | hpl
          · cases heq
            refine ⟨mem_addS_self, lookupP_eraseP_self hInv.knodup, ?_⟩
            intro x hx
            exact ⟨e, hm, hx⟩
          · cases hpl
        edge := by
          intro x ex b hx hb
          have hxT : lookupP x S.pending = some ex := lookupP_eraseP_some hInv.knodup hx
          rcases hInv.subs_lower x ex b hxT hb with ⟨eb, hebS, hxeb⟩
          by_cases hbm : b = m
          · subst hbm
            rw [hm] at hebS
            cases hebS
            exact Or.inr ⟨e.subclasses, List.mem_cons_self _ _, hxeb⟩
          · rw [← lookupP_eraseP_ne hbm] at hebS
            exact Or.inl ⟨eb, hebS, hxeb⟩
        empty_pb := by
          intro x ex hx hemp e' he'
          have hxT : lookupP x S.pending = some ex := lookupP_eraseP_some hInv.knodup hx
          rw [hxT] at he'
          cases he'
          exact hemp
        pops_marked := by
          intro x hxsome hxnone
          by_cases hxm : x = m
          · subst hxm
            exact mem_addS_self
          · rw [lookupP_eraseP_ne hxm] at hxnone
            rw [hxnone] at hxsome
            cases hxsome
        non_no_key := by
          intro b hb
          rcases mem_addS.mp hb with rfl | hb
          · exact lookupP_eraseP_self hInv.knodup
          · exact lookupP_none_of_sublist (eraseP_sublist _ _) (hnonnokey b hb) }

theorem names_nodup_snoc {O : List Decl} {m : String} {bs : List String}
    (honodup : (O.map Prod.fst).Nodup) (hfresh : m ∉ O.map Prod.fst) :
    ((O ++ [(m, bs)]).map Prod.fst).Nodup := by
  rw [List.map_append, List.map_cons, List.map_nil, List.nodup_append]
  refine ⟨honodup, List.nodup_singleton _, ?_⟩
  intro a ha hb
  simp only [List.mem_singleton] at hb
  subst hb
  exact hfresh ha

theorem mem_names_snoc {O : List Decl} {m : String} {bs : List String} {x : String} :
    x ∈ (O ++ [(m, bs)]).map Prod.fst ↔ x ∈ O.map Prod.fst ∨ x = m := by
  rw [List.map_append, List.mem_append]
  simp

theorem setIsNotModel_preserves {O : List Decl} {S : VisitorState} {m : String}
    {bs : List String} (hInv : Inv O S) (hfresh : m ∉ O.map Prod.fst)
    (hMemEq : ∀ x, Mem (O ++ [(m, bs)]) x ↔ Mem O x)
    (hNM : NonMem (O ++ [(m, bs)]) m) :
    Inv (O ++ [(m, bs)]) (setIsNotModel m S) := by
  have hctx := setIsNotModel_ctx hInv hfresh hMemEq hNM
  have hcomp := notModel_complete hInv hfresh hMemEq hctx
  have hnN_of : ∀ x, ¬ NonMem (O ++ [(m, bs)]) x → ¬ NonMem O x :=
    fun x h hO => h (nonmem_append_one hInv.onodup hfresh hO)
  have hkeyR_not_non : ∀ x e', lookupP x (setIsNotModel m S).pending = some e' →
      ¬ NonMem (O ++ [(m, bs)]) x := by
    intro x e' hx hN
    have := hctx.non_no_key x (hcomp x hN)
    rw [this] at hx
    cases hx
  refine
    { onodup := names_nodup_snoc hInv.onodup hfresh
      knodup := ?_
      models_iff := ?_
      non_iff := ?_
      key_complete := ?_
      pb_iff := ?_
      pb_nonempty_iff := ?_
      subs_lower := ?_
      subs_upper := ?_
      key_decl_or_not_mem := ?_
      key_bases_not_mem := ?_ }
  next => exact hctx.knodupT
  next =>
    intro n
    rw [hctx.models_eq, hInv.models_iff n]
    exact (hMemEq n).symm
  next =>
    intro n
    exact ⟨fun h => hctx.non_sound n h, fun h => hcomp n h⟩
  next =>
    intro n bsn hd hnN hbases
    rcases List.mem_append.mp hd with hdO | hdd
    · have hNO : ¬ NonMem O n := hnN_of n hnN
      have hbO : ∀ b ∈ bsn, ¬ Mem O b := fun b hb hM => hbases b hb ((hMemEq b).mpr hM)
      have hkey := hInv.key_complete n bsn hdO hNO hbO
      rcases Option.isSome_iff_exists.mp hkey with ⟨eS, heS⟩
      cases hR : lookupP n (setIsNotModel m S).pending with
      | none =>
        have hmark := hctx.pops_marked n (by rw [heS]; rfl) hR
        exact absurd (hctx.non_sound n hmark) hnN
      | some e' => rfl
    · simp only [List.mem_singleton, Prod.mk.injEq] at hdd
      exact absurd (hdd.1 ▸ hNM) hnN
  next =>
    intro x e' hx b
    rcases hctx.coup x e' hx with ⟨eS, heS, hsubeq, hpbsub, hrem⟩
    constructor
    · intro hb
      rcases (hInv.pb_iff x eS heS b).mp (hpbsub b hb) with ⟨bs', hd', hb', hnM, hnN⟩
      refine ⟨bs', List.mem_append_left _ hd', hb', fun hM' => hnM ((hMemEq b).mp hM'), ?_⟩
      intro hN'
      have hbnon := hcomp b hN'
      have hbnone := hctx.non_no_key b hbnon
      rcases hctx.edge x e' b hx hb with ⟨eb, hebR, _⟩ | ⟨l, hl, _⟩
      · rw [hbnone] at hebR
        cases hebR
      · cases hl
    · rintro ⟨bs', hd', hb', hnM', hnN'⟩
      rcases List.mem_append.mp hd' with hdO | hdd
      · have hnM : ¬ Mem O b := fun hM => hnM' ((hMemEq b).mpr hM)
        have hnN : ¬ NonMem O b := hnN_of b hnN'
        have hbS : b ∈ eS.pending_bases :=
          (hInv.pb_iff x eS heS b).mpr ⟨bs', hdO, hb', hnM, hnN⟩
        by_contra hnb
        have hbnon := hrem b hbS hnb
        exact hnN' (hctx.non_sound b hbnon)
      · simp only [List.mem_singleton, Prod.mk.injEq] at hdd
        exfalso
        exact hkeyR_not_non x e' hx (hdd.1 ▸ hNM)
  next =>
    intro x e' hx
    rcases hctx.coup x e' hx with ⟨eS, heS, hsubeq, hpbsub, hrem⟩
    constructor
    · intro hne
      rcases List.exists_mem_of_ne_nil _ hne with ⟨b, hb⟩
      rcases ((hInv.pb_iff x eS heS b).mp (hpbsub b hb)) with ⟨bs', hd', _, _, _⟩
      exact mem_names_snoc.mpr (Or.inl (List.mem_map.mpr ⟨(x, bs'), hd', rfl⟩))
    · intro hmemx
      rcases mem_names_snoc.mp hmemx with hmemO | rfl
      · intro hnil
        have hSnil := hctx.empty_pb x e' hx hnil eS heS
        exact (hInv.pb_nonempty_iff x eS heS).mpr hmemO hSnil
      · exfalso
        exact hkeyR_not_non x e' hx hNM
  next =>
    intro x e' b hx hb
    rcases hctx.edge x e' b hx hb with h1 | ⟨l, hl, _⟩
    · exact h1
    · cases hl
  next =>
    intro b eb' x hb hx
    rcases hctx.coup b eb' hb with ⟨ebS, hebS, hsubeq, _, _⟩
    rcases hInv.subs_upper b ebS x hebS (hsubeq ▸ hx) with ⟨bs', hd', hb'⟩
    exact ⟨bs', List.mem_append_left _ hd', hb'⟩
  next =>
    intro x e' hx
    rcases hctx.coup x e' hx with ⟨eS, heS, _, _, _⟩
    rcases hInv.key_decl_or_not_mem x eS heS with hdecl | hnM
    · exact Or.inl (mem_names_snoc.mpr (Or.inl hdecl))
    · exact Or.inr (fun hM' => hnM ((hMemEq x).mp hM'))
  next =>
    intro x e' bsx hx hd b hb hM'
    rcases List.mem_append.mp hd with hdO | hdd
    · rcases hctx.coup x e' hx with ⟨eS, heS, _, _, _⟩
      exact hInv.key_bases_not_mem x eS bsx heS hdO b hb ((hMemEq b).mp hM')
    · simp only [List.mem_singleton, Prod.mk.injEq] at hdd
      exact hkeyR_not_non x e' hx (hdd.1 ▸ hNM)

theorem reachNew_marked {O : List Decl} {S : VisitorState} (hInv : Inv O S)
    {m : String} {bs : List String} (hfresh : m ∉ O.map Prod.fst)
    (hMm : Mem (O ++ [(m, bs)]) m) :
    ∀ n, ReachNew O m n → n ∈ (setIsModelGo S [m]).models := by
  intro n hr
  induction hr with
  | root => exact setIsModelGo_stack_marked _ _ m (List.mem_cons_self _ _)
  | @step b x bsx hRb hdx hbx hnMx ih =>
    have hMb' : Mem (O ++ [(m, bs)]) b := reachNew_mem hMm hRb
    have hnMb : ¬ Mem O b := fun hMOb => hnMx (Mem.base hdx hbx hMOb)
    have hnNb : ¬ NonMem O b := by
      rcases mem_prime_not_nonmem hInv.onodup hfresh hMb' with h1 | h2
      · exact absurd h1 hnMb
      · exact h2
    have hnNx : ¬ NonMem O x := by
      have hMx' : Mem (O ++ [(m, bs)]) x :=
        Mem.base (List.mem_append_left _ hdx) hbx hMb'
      rcases mem_prime_not_nonmem hInv.onodup hfresh hMx' with h1 | h2
      · exact absurd h1 hnMx
      · exact h2
    have hbasesx : ∀ b' ∈ bsx, ¬ Mem O b' :=
      fun b' hb' hM => hnMx (Mem.base hdx hb' hM)
    have hkeyx := hInv.key_complete x bsx hdx hnNx hbasesx
    rcases Option.isSome_iff_exists.mp hkeyx with ⟨ex, hex⟩
    have hbpb : b ∈ ex.pending_bases :=
      (hInv.pb_iff x ex hex b).mpr ⟨bsx, hdx, hbx, hnMb, hnNb⟩
    rcases hInv.subs_lower x ex b hex hbpb with ⟨eb, hebS, hxeb⟩
    have hbnotS : b ∉ S.models := fun h => hnMb ((hInv.models_iff b).mp h)
    exact setIsModelGo_new_marked_subs S [m] hInv.knodup b eb ih hbnotS hebS x hxeb

theorem setIsModel_preserves {O : List Decl} {S : VisitorState} {m : String}
    {bs : List String} (hInv : Inv O S) (hfresh : m ∉ O.map Prod.fst)
    (hMemBase : ∃ b ∈ bs, Mem O b) :
    Inv (O ++ [(m, bs)]) (setIsModel m S) := by
  have hNonEq := nonmem_eq_of_mem_base hInv.onodup hfresh hMemBase
  have hdm : (m, bs) ∈ O ++ [(m, bs)] :=
    List.mem_append_right _ (List.mem_singleton.mpr rfl)
  have hMm : Mem (O ++ [(m, bs)]) m := by
    rcases hMemBase with ⟨b, hb, hM⟩
    exact Mem.base hdm hb (mem_append_one _ hM)
  have hmodels : ∀ n, n ∈ (setIsModelGo S [m]).models ↔ Mem (O ++ [(m, bs)]) n := by
    intro n
    constructor
    · intro hn
      have hsound := setIsModelGo_sound (Mem (O ++ [(m, bs)])) S [m] hInv.knodup
        (by
          intro x hx
          rcases List.mem_singleton.mp hx with rfl
          exact hMm)
        (by
          intro k e x hk hx hGk
          rcases hInv.subs_upper k e x hk hx with ⟨bsx, hdx, hkbsx⟩
          exact Mem.base (List.mem_append_left _ hdx) hkbsx hGk)
        n hn
      rcases hsound with hm | hG
      · exact mem_append_one _ ((hInv.models_iff n).mp hm)
      · exact hG
    · intro hM'
      rcases mem_prime_cases hM' with hMO | hRN
      · exact setIsModelGo_models_super S [m] n ((hInv.models_iff n).mpr hMO)
      · exact reachNew_marked hInv hfresh hMm n hRN
  have hmnone : lookupP m (setIsModelGo S [m]).pending = none :=
    setIsModelGo_stack_popped S [m] hInv.knodup m (List.mem_cons_self _ _)
  unfold setIsModel
  refine
    { onodup := names_nodup_snoc hInv.onodup hfresh
      knodup := ((setIsModelGo_pending_sublist S [m]).map Prod.fst).nodup hInv.knodup
      models_iff := hmodels
      non_iff := ?_
      key_complete := ?_
      pb_iff := ?_
      pb_nonempty_iff := ?_
      subs_lower := ?_
      subs_upper := ?_
      key_decl_or_not_mem := ?_
      key_bases_not_mem := ?_ }
  next =>
    intro n
    show n ∈ (setIsModelGo S [m]).non_models ↔ _
    rw [setIsModelGo_non_models, hInv.non_iff n]
    exact (hNonEq n).symm
  next =>
    intro n bsn hd hnN' hbases'
    rcases List.mem_append.mp hd with hdO | hdd
    · have hnN : ¬ NonMem O n := fun h => hnN' ((hNonEq n).mpr h)
      have hbases : ∀ b ∈ bsn, ¬ Mem O b :=
        fun b hb hM => hbases' b hb (mem_append_one _ hM)
      have hkey := hInv.key_complete n bsn hdO hnN hbases
      rcases Option.isSome_iff_exists.mp hkey with ⟨eS, heS⟩
      cases hR : lookupP n (setIsModelGo S [m]).pending with
      | some e' => rfl
      | none =>
        exfalso
        rcases setIsModelGo_popped_cases S [m] hInv.knodup n hR with h1 | h2 | hex
        · rw [heS] at h1
          cases h1
        · rcases List.mem_singleton.mp h2 with rfl
          exact hfresh (List.mem_map.mpr ⟨(n, bsn), hdO, rfl⟩)
        · rcases hex with ⟨k, ek, hkS, hnk, hkR⟩
          have hMk' := (hmodels k).mp hkR
          rcases hInv.subs_upper k ek n hkS hnk with ⟨bs'', hd'', hk''⟩
          have hbeq : bs'' = bsn := decl_unique hInv.onodup hd'' hdO
          subst hbeq
          exact hbases' k hk'' hMk'
    · simp only [List.mem_singleton, Prod.mk.injEq] at hdd
      rcases hMemBase with ⟨b, hb, hM⟩
      exact absurd (mem_append_one _ hM) (hbases' b (hdd.2 ▸ hb))
  next =>
    intro x e' hx b
    have hxS : lookupP x S.pending = some e' :=
      setIsModelGo_pending_lookup S [m] hInv.knodup x e' hx
    constructor
    · intro hb
      rcases (hInv.pb_iff x e' hxS b).mp hb with ⟨bs', hd', hb', hnM, hnN⟩
      refine ⟨bs', List.mem_append_left _ hd', hb', ?_, fun h => hnN ((hNonEq b).mp h)⟩
      intro hM'
      rcases mem_prime_cases hM' with hMO | hRN
      · exact hnM hMO
      · have hbR : b ∈ (setIsModelGo S [m]).models :=
          reachNew_marked hInv hfresh hMm b hRN
        have hbnotS : b ∉ S.models := fun h => hnM ((hInv.models_iff b).mp h)
        rcases hInv.subs_lower x e' b hxS hb with ⟨eb, hebS, hxeb⟩
        have := setIsModelGo_new_marked_subs_popped S [m] hInv.knodup b eb hbR
          hbnotS hebS x hxeb
        rw [this] at hx
        cases hx
    · rintro ⟨bs', hd', hb', hnM', hnN'⟩
      rcases List.mem_append.mp hd' with hdO | hdd
      · have hnM : ¬ Mem O b := fun h => hnM' (mem_append_one _ h)
        have hnN : ¬ NonMem O b := fun h => hnN' ((hNonEq b).mpr h)
        exact (hInv.pb_iff x e' hxS b).mpr ⟨bs', hdO, hb', hnM, hnN⟩
      · simp only [List.mem_singleton, Prod.mk.injEq] at hdd
        exfalso
        rw [hdd.1] at hx
        rw [hmnone] at hx
        cases hx
  next =>
    intro x e' hx
    have hxS : lookupP x S.pending = some e' :=
      setIsModelGo_pending_lookup S [m] hInv.knodup x e' hx
    constructor
    · intro hne
      exact mem_names_snoc.mpr (Or.inl ((hInv.pb_nonempty_iff x e' hxS).mp hne))
    · intro hmem'
      rcases mem_names_snoc.mp hmem' with hmemO | rfl
      · exact (hInv.pb_nonempty_iff x e' hxS).mpr hmemO
      · exfalso
        rw [hmnone] at hx
        cases hx
  next =>
    intro x e' b hx hb
    have hxS : lookupP x S.pending = some e' :=
      setIsModelGo_pending_lookup S [m] hInv.knodup x e' hx
    rcases hInv.subs_lower x e' b hxS hb with ⟨eb, hebS, hxeb⟩
    cases hbR : lookupP b (setIsModelGo S [m]).pending with
    | some eb₂ =>
      have hbS2 : lookupP b S.pending = some eb₂ :=
        setIsModelGo_pending_lookup S [m] hInv.knodup b eb₂ hbR
      rw [hebS] at hbS2
      cases hbS2
      exact ⟨_, rfl, hxeb⟩
    | none =>
      exfalso
      have hbmark := setIsModelGo_popped_marked S [m] b eb hebS hbR
      have hMb' := (hmodels b).mp hbmark
      rcases (hInv.pb_iff x e' hxS b).mp hb with ⟨_, _, _, hnM, hnN⟩
      rcases mem_prime_cases hMb' with hMO | hRN
      · exact hnM hMO
      · have hbR2 : b ∈ (setIsModelGo S [m]).models :=
          reachNew_marked hInv hfresh hMm b hRN
        have hbnotS : b ∉ S.models := fun h => hnM ((hInv.models_iff b).mp h)
        have := setIsModelGo_new_marked_subs_popped S [m] hInv.knodup b eb hbR2
          hbnotS hebS x hxeb
        rw [this] at hx
        cases hx
  next =>
    intro b eb x hb hx
    have hbS : lookupP b S.pending = some eb :=
      setIsModelGo_pending_lookup S [m] hInv.knodup b eb hb
    rcases hInv.subs_upper b eb x hbS hx with ⟨bs', hd', hb'⟩
    exact ⟨bs', List.mem_append_left _ hd', hb'⟩
  next =>
    intro x e' hx
    have hxS : lookupP x S.pending = some e' :=
      setIsModelGo_pending_lookup S [m] hInv.knodup x e' hx
    by_cases hM' : Mem (O ++ [(m, bs)]) x
    · rcases mem_prime_cases hM' with hMO | hRN
      · rcases hInv.key_decl_or_not_mem x e' hxS with hdecl | hnM
        · exact Or.inl (mem_names_snoc.mpr (Or.inl hdecl))
        · exact absurd hMO hnM
      · cases hRN with
        | root =>
          exfalso
          rw [hmnone] at hx
          cases hx
        | step _ hdx _ _ =>
          exact Or.inl (mem_names_snoc.mpr (Or.inl (List.mem_map.mpr ⟨_, hdx, rfl⟩)))
    · exact Or.inr hM'
  next =>
    intro x e' bsx hx hd b hb hM'
    have hxS : lookupP x S.pending = some e' :=
      setIsModelGo_pending_lookup S [m] hInv.knodup x e' hx
    rcases List.mem_append.mp hd with hdO | hdd
    · have hnM : ¬ Mem O b := hInv.key_bases_not_mem x e' bsx hxS hdO b hb
      rcases mem_prime_cases hM' with hMO | hRN
      · exact hnM hMO
      · have hnN : ¬ NonMem O b := by
          rcases mem_prime_not_nonmem hInv.onodup hfresh hM' with h1 | h2
          · exact absurd h1 hnM
          · exact h2
        have hbpb : b ∈ e'.pending_bases :=
          (hInv.pb_iff x e' hxS b).mpr ⟨bsx, hdO, hb, hnM, hnN⟩
        rcases hInv.subs_lower x e' b hxS hbpb with ⟨eb, hebS, hxeb⟩
        have hbR : b ∈ (setIsModelGo S [m]).models :=
          reachNew_marked hInv hfresh hMm b hRN
        have hbnotS : b ∉ S.models := fun h => hnM ((hInv.models_iff b).mp h)
        have := setIsModelGo_new_marked_subs_popped S [m] hInv.knodup b eb hbR
          hbnotS hebS x hxeb
        rw [this] at hx
        cases hx
    · simp only [List.mem_singleton, Prod.mk.injEq] at hdd
      rw [hdd.1] at hx
      rw [hmnone] at hx
      cases hx

/-! Lemmas about the subclass-registration loop of `visit_ClassDef`. -/

theorem addS_idem {x : String} {l : List String} : addS x (addS x l) = addS x l := by
  unfold addS
  by_cases h : x ∈ l <;> simp [h]

theorem foldAdd_models (u : List String) (m : String) (acc : VisitorState) :
    (u.foldl (fun acc b => { acc with pending := pendAddSubclass b m acc.pending })
      acc).models = acc.models := by
  induction u generalizing acc with
  | nil => rfl
  | cons b u' ih => exact ih _

theorem foldAdd_non_models (u : List String) (m : String) (acc : VisitorState) :
    (u.foldl (fun acc b => { acc with pending := pendAddSubclass b m acc.pending })
      acc).non_models = acc.non_models := by
  induction u generalizing acc with
  | nil => rfl
  | cons b u' ih => exact ih _

theorem foldAdd_keys_nodup (u : List String) (m : String) (acc : VisitorState)
    (hnd : (acc.pending.map Prod.fst).Nodup) :
    (((u.foldl (fun acc b => { acc with pending := pendAddSubclass b m acc.pending })
      acc).pending).map Prod.fst).Nodup := by
  induction u generalizing acc with
  | nil => exact hnd
  | cons b u' ih => exact ih _ (pendAddSubclass_keys_nodup hnd)

theorem foldAdd_lookup (u : List String) (m : String) (acc : VisitorState) (x : String) :
    lookupP x ((u.foldl
        (fun acc b => { acc with pending := pendAddSubclass b m acc.pending })
      acc).pending) =
      if x ∈ u then
        match lookupP x acc.pending with
        | some e => some ⟨e.pending_bases, addS m e.subclasses⟩
        | none => some ⟨[], [m]⟩
      else lookupP x acc.pending := by
  induction u generalizing acc with
  | nil => simp
  | cons b u' ih =>
    show lookupP x ((u'.foldl _ { acc with pending := pendAddSubclass b m acc.pending }).pending) = _
    rw [ih]
    by_cases hxu : x ∈ u'
    · rw [if_pos hxu, if_pos (List.mem_cons_of_mem _ hxu)]
      by_cases hxb : x = b
      · subst hxb
        cases hax : lookupP x acc.pending with
        | some e =>
          rw [pendAddSubclass_lookup_self_some hax]
          show some (⟨e.pending_bases, addS m (addS m e.subclasses)⟩ : PendingClass) = _
          rw [addS_idem]
        | none =>
          rw [pendAddSubclass_lookup_self_none hax]
          show some (⟨[], addS m [m]⟩ : PendingClass) = _
          have : addS m [m] = [m] := by
            unfold addS
            rw [if_pos (List.mem_singleton.mpr rfl)]
          rw [this]
      · rw [pendAddSubclass_lookup_ne hxb]
    · rw [if_neg hxu]
      by_cases hxb : x = b
      · subst hxb
        rw [if_pos (List.mem_cons_self _ _)]
        cases hax : lookupP x acc.pending with
        | some e => rw [pendAddSubclass_lookup_self_some hax]
        | none => rw [pendAddSubclass_lookup_self_none hax]
      · rw [if_neg (fun hmem => by
          rcases List.mem_cons.mp hmem with h | h
          · exact hxb h
          · exact hxu h), pendAddSubclass_lookup_ne hxb]

theorem observe_pending_preserves {O : List Decl} {S : VisitorState} {m : String}
    {bs : List String} {u : List String} (hInv : Inv O S) (hfresh : m ∉ O.map Prod.fst)
    (hu_def : u = bs.filter (fun b => decide (b ∉ S.models) && decide (b ∉ S.non_models)))
    (hNoModel : ∀ b ∈ bs, b ∉ S.models) (hune : u ≠ []) :
    Inv (O ++ [(m, bs)])
      (u.foldl (fun acc b => { acc with pending := pendAddSubclass b m acc.pending })
        ({ S with pending := pendSetBases m u.dedup S.pending } : VisitorState)) := by
  have huMem : ∀ b, b ∈ u ↔ b ∈ bs ∧ ¬ Mem O b ∧ ¬ NonMem O b := by
    intro b
    rw [hu_def, List.mem_filter]
    simp only [Bool.and_eq_true, decide_eq_true_eq]
    constructor
    · rintro ⟨hb, h1, h2⟩
      exact ⟨hb, fun hM => h1 ((hInv.models_iff b).mpr hM),
        fun hN => h2 ((hInv.non_iff b).mpr hN)⟩
    · rintro ⟨hb, h1, h2⟩
      exact ⟨hb, fun hM => h1 ((hInv.models_iff b).mp hM),
        fun hN => h2 ((hInv.non_iff b).mp hN)⟩
  have hNoMemBase : ∀ b ∈ bs, ¬ Mem O b :=
    fun b hb hM => hNoModel b hb ((hInv.models_iff b).mpr hM)
  have hMemEq : ∀ x, Mem (O ++ [(m, bs)]) x ↔ Mem O x := mem_eq_of_no_mem_base hNoMemBase
  have hq : ∃ b ∈ bs, ¬ NonMem O b := by
    rcases List.exists_mem_of_ne_nil u hune with ⟨b, hb⟩
    rcases (huMem b).mp hb with ⟨hbs, _, hN⟩
    exact ⟨b, hbs, hN⟩
  have hNonEq := nonmem_eq_of_unresolved hInv.onodup hfresh hq
  have hdm : (m, bs) ∈ O ++ [(m, bs)] :=
    List.mem_append_right _ (List.mem_singleton.mpr rfl)
  have hdmU : ∀ bsx, (m, bsx) ∈ O ++ [(m, bs)] → bsx = bs := by
    intro bsx h
    rcases List.mem_append.mp h with h | h
    · exact absurd (List.mem_map.mpr ⟨(m, bsx), h, rfl⟩) hfresh
    · exact congrArg Prod.snd (List.mem_singleton.mp h)
  have hdeclO : ∀ x (bsx : List String), x ≠ m →
      ((x, bsx) ∈ O ++ [(m, bs)] ↔ (x, bsx) ∈ O) := by
    intro x bsx hxm
    constructor
    · intro h
      rcases List.mem_append.mp h with h | h
      · exact h
      · exact absurd (congrArg Prod.fst (List.mem_singleton.mp h)) hxm
    · exact List.mem_append_left _
  have hRHS : ∀ x, x ≠ m → ∀ b,
      ((∃ bsx, (x, bsx) ∈ O ++ [(m, bs)] ∧ b ∈ bsx ∧ ¬ Mem (O ++ [(m, bs)]) b ∧
        ¬ NonMem (O ++ [(m, bs)]) b) ↔
       (∃ bsx, (x, bsx) ∈ O ∧ b ∈ bsx ∧ ¬ Mem O b ∧ ¬ NonMem O b)) := by
    intro x hxm b
    constructor
    · rintro ⟨bsx, hd, hb, hM, hN⟩
      exact ⟨bsx, (hdeclO x bsx hxm).mp hd, hb, fun h => hM ((hMemEq b).mpr h),
        fun h => hN ((hNonEq b).mpr h)⟩
    · rintro ⟨bsx, hd, hb, hM, hN⟩
      exact ⟨bsx, (hdeclO x bsx hxm).mpr hd, hb, fun h => hM ((hMemEq b).mp h),
        fun h => hN ((hNonEq b).mp h)⟩
  have hNoKeyNoDecl : ∀ x bsx, x ∈ u → lookupP x S.pending = none → (x, bsx) ∈ O → False := by
    intro x bsx hxu hnone hdx
    rcases (huMem x).mp hxu with ⟨_, hM, hN⟩
    have hall : ∀ c ∈ bsx, ¬ Mem O c := fun c hc hMc => hM (Mem.base hdx hc hMc)
    have hks := hInv.key_complete x bsx hdx hN hall
    rw [hnone] at hks
    simp at hks
  have hNamesDecl : ∀ x, x ∈ O.map Prod.fst → ∃ bsx, (x, bsx) ∈ O := by
    intro x hx
    rcases List.mem_map.mp hx with ⟨⟨x1, bsx⟩, hp, rfl⟩
    exact ⟨bsx, hp⟩
  have hproj : ({ S with pending := pendSetBases m u.dedup S.pending } : VisitorState).pending =
      pendSetBases m u.dedup S.pending := rfl
  have hRmodels : (u.foldl (fun acc b => { acc with pending := pendAddSubclass b m acc.pending })
      ({ S with pending := pendSetBases m u.dedup S.pending } : VisitorState)).models = S.models :=
    foldAdd_models u m _
  have hRnon : (u.foldl (fun acc b => { acc with pending := pendAddSubclass b m acc.pending })
      ({ S with pending := pendSetBases m u.dedup S.pending } : VisitorState)).non_models = S.non_models :=
    foldAdd_non_models u m _
  have hLxS : ∀ x e0, x ≠ m → x ∈ u → lookupP x S.pending = some e0 →
      lookupP x ((u.foldl (fun acc b => { acc with pending := pendAddSubclass b m acc.pending })
        ({ S with pending := pendSetBases m u.dedup S.pending } : VisitorState)).pending) =
        some ⟨e0.pending_bases, addS m e0.subclasses⟩ := by
    intro x e0 hxm hxu hx0
    rw [foldAdd_lookup, hproj, if_pos hxu, pendSetBases_lookup_ne hxm, hx0]
  have hLxN : ∀ x, x ≠ m → x ∈ u → lookupP x S.pending = none →
      lookupP x ((u.foldl (fun acc b => { acc with pending := pendAddSubclass b m acc.pending })
        ({ S with pending := pendSetBases m u.dedup S.pending } : VisitorState)).pending) =
        some ⟨[], [m]⟩ := by
    intro x hxm hxu hx0
    rw [foldAdd_lookup, hproj, if_pos hxu, pendSetBases_lookup_ne hxm, hx0]
  have hLxU : ∀ x, x ≠ m → x ∉ u →
      lookupP x ((u.foldl (fun acc b => { acc with pending := pendAddSubclass b m acc.pending })
        ({ S with pending := pendSetBases m u.dedup S.pending } : VisitorState)).pending) =
        lookupP x S.pending := by
    intro x hxm hxu
    rw [foldAdd_lookup, hproj, if_neg hxu, pendSetBases_lookup_ne hxm]
  have hLm : ∃ sm, lookupP m ((u.foldl
        (fun acc b => { acc with pending := pendAddSubclass b m acc.pending })
        ({ S with pending := pendSetBases m u.dedup S.pending } : VisitorState)).pending) =
        some ⟨u.dedup, sm⟩ ∧
      (∀ y ∈ sm, (y = m ∧ m ∈ u) ∨ ∃ em, lookupP m S.pending = some em ∧ y ∈ em.subclasses) ∧
      (m ∈ u → m ∈ sm) ∧
      (∀ em, lookupP m S.pending = some em → ∀ y ∈ em.subclasses, y ∈ sm) := by
    cases hmS : lookupP m S.pending with
    | some e =>
      by_cases hmu : m ∈ u
      · refine ⟨addS m e.subclasses, ?_, ?_, fun _ => mem_addS_self, ?_⟩
        · rw [foldAdd_lookup, hproj, if_pos hmu, pendSetBases_lookup_self_some hmS]
        · intro y hy
          rcases mem_addS.mp hy with rfl | hy2
          · exact Or.inl ⟨rfl, hmu⟩
          · exact Or.inr ⟨e, rfl, hy2⟩
        · intro em hem y hy
          simp only [Option.some.injEq] at hem
          subst hem
          exact mem_addS_of_mem hy
      · refine ⟨e.subclasses, ?_, ?_, fun h => absurd h hmu, ?_⟩
        · rw [foldAdd_lookup, hproj, if_neg hmu, pendSetBases_lookup_self_some hmS]
        · intro y hy
          exact Or.inr ⟨e, rfl, hy⟩
        · intro em hem y hy
          simp only [Option.some.injEq] at hem
          subst hem
          exact hy
    | none =>
      by_cases hmu : m ∈ u
      · refine ⟨addS m [], ?_, ?_, fun _ => mem_addS_self, ?_⟩
        · rw [foldAdd_lookup, hproj, if_pos hmu, pendSetBases_lookup_self_none hmS]
        · intro y hy
          rcases mem_addS.mp hy with rfl | hy2
          · exact Or.inl ⟨rfl, hmu⟩
          · exact absurd hy2 (List.not_mem_nil y)
        · intro em hem
          exact Option.noConfusion hem
      · refine ⟨[], ?_, ?_, fun h => absurd h hmu, ?_⟩
        · rw [foldAdd_lookup, hproj, if_neg hmu, pendSetBases_lookup_self_none hmS]
        · intro y hy
          exact absurd hy (List.not_mem_nil y)
        · intro em hem
          exact Option.noConfusion hem
  obtain ⟨sm, hA, hB, hC, hD⟩ := hLm
  have hstep : ∀ b eb, lookupP b S.pending = some eb → ∀ x, x ∈ eb.subclasses →
      ∃ eb2, lookupP b ((u.foldl
          (fun acc b => { acc with pending := pendAddSubclass b m acc.pending })
          ({ S with pending := pendSetBases m u.dedup S.pending } : VisitorState)).pending) = some eb2 ∧
        x ∈ eb2.subclasses := by
    intro b eb hebS x hx
    by_cases hbm : b = m
    · subst hbm
      exact ⟨⟨u.dedup, sm⟩, hA, hD eb hebS x hx⟩
    · by_cases hbu : b ∈ u
      · exact ⟨_, hLxS b eb hbm hbu hebS, mem_addS_of_mem hx⟩
      · exact ⟨eb, (hLxU b hbm hbu).trans hebS, hx⟩
  refine ⟨names_nodup_snoc hInv.onodup hfresh,
    foldAdd_keys_nodup u m _ (pendSetBases_keys_nodup hInv.knodup),
    ?_, ?_, ?_, ?_, ?_, ?_, ?_, ?_, ?_⟩
  · intro n
    rw [hRmodels, hInv.models_iff n]
    exact (hMemEq n).symm
  · intro n
    rw [hRnon, hInv.non_iff n]
    exact (hNonEq n).symm
  · intro n bsx hd hnN hnb
    by_cases hnm : n = m
    · subst hnm
      rw [hA]
      rfl
    · have hd2 : (n, bsx) ∈ O := (hdeclO n bsx hnm).mp hd
      have hnN2 : ¬ NonMem O n := fun h => hnN ((hNonEq n).mpr h)
      have hnb2 : ∀ b ∈ bsx, ¬ Mem O b := fun b hb h => hnb b hb ((hMemEq b).mpr h)
      have hS := hInv.key_complete n bsx hd2 hnN2 hnb2
      by_cases hnu : n ∈ u
      · cases hnS : lookupP n S.pending with
        | some e0 => rw [hLxS n e0 hnm hnu hnS]; rfl
        | none => rw [hLxN n hnm hnu hnS]; rfl
      · rw [hLxU n hnm hnu]
        exact hS
  · intro n e hRl b
    by_cases hnm : n = m
    · subst hnm
      rw [hA] at hRl
      simp only [Option.some.injEq] at hRl
      subst hRl
      show b ∈ u.dedup ↔ _
      rw [List.mem_dedup]
      constructor
      · intro hbu
        rcases (huMem b).mp hbu with ⟨hbbs, hM, hN⟩
        exact ⟨bs, hdm, hbbs, fun h => hM ((hMemEq b).mp h), fun h => hN ((hNonEq b).mp h)⟩
      · rintro ⟨bsx, hd, hb, hM, hN⟩
        have hbsx := hdmU bsx hd
        subst hbsx
        exact (huMem b).mpr ⟨hb, fun h => hM ((hMemEq b).mpr h), fun h => hN ((hNonEq b).mpr h)⟩
    · rw [hRHS n hnm b]
      by_cases hnu : n ∈ u
      · cases hnS : lookupP n S.pending with
        | some e0 =>
          rw [hLxS n e0 hnm hnu hnS] at hRl
          simp only [Option.some.injEq] at hRl
          subst hRl
          show b ∈ e0.pending_bases ↔ _
          exact hInv.pb_iff n e0 hnS b
        | none =>
          rw [hLxN n hnm hnu hnS] at hRl
          simp only [Option.some.injEq] at hRl
          subst hRl
          show b ∈ ([] : List String) ↔ _
          constructor
          · intro h
            exact absurd h (List.not_mem_nil b)
          · rintro ⟨bsx, hd, hb, hM, hN⟩
            exact (hNoKeyNoDecl n bsx hnu hnS hd).elim
      · rw [hLxU n hnm hnu] at hRl
        exact hInv.pb_iff n e hRl b
  · intro n e hRl
    by_cases hnm : n = m
    · subst hnm
      rw [hA] at hRl
      simp only [Option.some.injEq] at hRl
      subst hRl
      show u.dedup ≠ [] ↔ _
      refine iff_of_true ?_ (mem_names_snoc.mpr (Or.inr rfl))
      intro h
      rcases List.exists_mem_of_ne_nil u hune with ⟨y, hy⟩
      have hyd : y ∈ u.dedup := List.mem_dedup.mpr hy
      rw [h] at hyd
      exact absurd hyd (List.not_mem_nil y)
    · by_cases hnu : n ∈ u
      · cases hnS : lookupP n S.pending with
        | some e0 =>
          rw [hLxS n e0 hnm hnu hnS] at hRl
          simp only [Option.some.injEq] at hRl
          subst hRl
          show e0.pending_bases ≠ [] ↔ _
          rw [hInv.pb_nonempty_iff n e0 hnS, mem_names_snoc]
          constructor
          · exact fun h => Or.inl h
          · rintro (h | h)
            · exact h
            · exact absurd h hnm
        | none =>
          rw [hLxN n hnm hnu hnS] at hRl
          simp only [Option.some.injEq] at hRl
          subst hRl
          show ([] : List String) ≠ [] ↔ _
          refine iff_of_false (fun h => h rfl) ?_
          intro hmem
          rcases mem_names_snoc.mp hmem with h | h
          · rcases hNamesDecl n h with ⟨bsx, hdx⟩
            exact hNoKeyNoDecl n bsx hnu hnS hdx
          · exact hnm h
      · rw [hLxU n hnm hnu] at hRl
        rw [hInv.pb_nonempty_iff n e hRl, mem_names_snoc]
        constructor
        · exact fun h => Or.inl h
        · rintro (h | h)
          · exact h
          · exact absurd h hnm
  · intro n e b hRl hb
    by_cases hnm : n = m
    · subst hnm
      rw [hA] at hRl
      simp only [Option.some.injEq] at hRl
      subst hRl
      have hbu : b ∈ u := List.mem_dedup.mp hb
      by_cases hbm : b = n
      · subst hbm
        exact ⟨⟨u.dedup, sm⟩, hA, hC hbu⟩
      · cases hbS : lookupP b S.pending with
        | some e0 => exact ⟨_, hLxS b e0 hbm hbu hbS, mem_addS_self⟩
        | none => exact ⟨_, hLxN b hbm hbu hbS, List.mem_singleton.mpr rfl⟩
    · by_cases hnu : n ∈ u
      · cases hnS : lookupP n S.pending with
        | some e0 =>
          rw [hLxS n e0 hnm hnu hnS] at hRl
          simp only [Option.some.injEq] at hRl
          subst hRl
          have hb0 : b ∈ e0.pending_bases := hb
          rcases hInv.subs_lower n e0 b hnS hb0 with ⟨eb, hebS, hnsub⟩
          exact hstep b eb hebS n hnsub
        | none =>
          rw [hLxN n hnm hnu hnS] at hRl
          simp only [Option.some.injEq] at hRl
          subst hRl
          exact absurd hb (List.not_mem_nil b)
      · rw [hLxU n hnm hnu] at hRl
        rcases hInv.subs_lower n e b hRl hb with ⟨eb, hebS, hnsub⟩
        exact hstep b eb hebS n hnsub
  · intro b eb x hRl hx
    by_cases hbm : b = m
    · subst hbm
      rw [hA] at hRl
      simp only [Option.some.injEq] at hRl
      subst hRl
      rcases hB x hx with ⟨hxm, hmu⟩ | ⟨em, hemS, hxem⟩
      · subst hxm
        exact ⟨bs, hdm, ((huMem x).mp hmu).1⟩
      · rcases hInv.subs_upper b em x hemS hxem with ⟨bsx, hdx, hbbsx⟩
        exact ⟨bsx, List.mem_append_left _ hdx, hbbsx⟩
    · by_cases hbu : b ∈ u
      · cases hbS : lookupP b S.pending with
        | some e0 =>
          rw [hLxS b e0 hbm hbu hbS] at hRl
          simp only [Option.some.injEq] at hRl
          subst hRl
          rcases mem_addS.mp hx with hxm | hxe
          · subst hxm
            exact ⟨bs, hdm, ((huMem b).mp hbu).1⟩
          · rcases hInv.subs_upper b e0 x hbS hxe with ⟨bsx, hdx, hbbsx⟩
            exact ⟨bsx, List.mem_append_left _ hdx, hbbsx⟩
        | none =>
          rw [hLxN b hbm hbu hbS] at hRl
          simp only [Option.some.injEq] at hRl
          subst hRl
          have hxm : x = m := List.mem_singleton.mp hx
          subst hxm
          exact ⟨bs, hdm, ((huMem b).mp hbu).1⟩
      · rw [hLxU b hbm hbu] at hRl
        rcases hInv.subs_upper b eb x hRl hx with ⟨bsx, hdx, hbbsx⟩
        exact ⟨bsx, List.mem_append_left _ hdx, hbbsx⟩
  · intro n e hRl
    by_cases hnm : n = m
    · subst hnm
      exact Or.inl (mem_names_snoc.mpr (Or.inr rfl))
    · by_cases hnu : n ∈ u
      · refine Or.inr ?_
        rcases (huMem n).mp hnu with ⟨_, hM, _⟩
        exact fun h => hM ((hMemEq n).mp h)
      · rw [hLxU n hnm hnu] at hRl
        rcases hInv.key_decl_or_not_mem n e hRl with h | h
        · exact Or.inl (mem_names_snoc.mpr (Or.inl h))
        · exact Or.inr (fun h2 => h ((hMemEq n).mp h2))
  · intro n e bsx hRl hd b hb
    by_cases hnm : n = m
    · subst hnm
      have hbsx := hdmU bsx hd
      subst hbsx
      exact fun h => hNoMemBase b hb ((hMemEq b).mp h)
    · have hd2 : (n, bsx) ∈ O := (hdeclO n bsx hnm).mp hd
      by_cases hnu : n ∈ u
      · cases hnS : lookupP n S.pending with
        | some e0 =>
          exact fun h => hInv.key_bases_not_mem n e0 bsx hnS hd2 b hb ((hMemEq b).mp h)
        | none =>
          exact (hNoKeyNoDecl n bsx hnu hnS hd2).elim
      · rw [hLxU n hnm hnu] at hRl
        exact fun h => hInv.key_bases_not_mem n e bsx hRl hd2 b hb ((hMemEq b).mp h)

theorem observe_preserves {O : List Decl} {S : VisitorState} {m : String} {bs : List String}
    (hInv : Inv O S) (hfresh : m ∉ O.map Prod.fst) :
    Inv (O ++ [(m, bs)]) (observeClass S m bs) := by
  have hdm : (m, bs) ∈ O ++ [(m, bs)] :=
    List.mem_append_right _ (List.mem_singleton.mpr rfl)
  unfold observeClass
  by_cases hbs : bs = []
  · rw [if_pos hbs]
    subst hbs
    refine setIsNotModel_preserves hInv hfresh ?_ ?_
    · exact mem_eq_of_no_mem_base (fun b hb => absurd hb (List.not_mem_nil b))
    · exact NonMem.intro hdm
        (fun b hb => absurd hb (List.not_mem_nil b))
        (fun b hb => absurd hb (List.not_mem_nil b))
  · rw [if_neg hbs]
    show Inv (O ++ [(m, bs)])
      (if bs.any (fun b => decide (b ∈ S.models)) = true then setIsModel m S
       else if bs.filter (fun b => decide (b ∉ S.models) && decide (b ∉ S.non_models)) = []
         then setIsNotModel m S
       else (bs.filter (fun b => decide (b ∉ S.models) && decide (b ∉ S.non_models))).foldl
         (fun acc b => { acc with pending := pendAddSubclass b m acc.pending })
         ({ S with pending := pendSetBases m (bs.filter (fun b => decide (b ∉ S.models) && decide (b ∉ S.non_models))).dedup S.pending } : VisitorState))
    by_cases hAny : bs.any (fun b => decide (b ∈ S.models)) = true
    · rw [if_pos hAny]
      rcases List.any_eq_true.mp hAny with ⟨b, hb, hbM⟩
      exact setIsModel_preserves hInv hfresh
        ⟨b, hb, (hInv.models_iff b).mp (of_decide_eq_true hbM)⟩
    · rw [if_neg hAny]
      have hNoModel : ∀ b ∈ bs, b ∉ S.models := by
        intro b hb hbM
        exact hAny (List.any_eq_true.mpr ⟨b, hb, decide_eq_true hbM⟩)
      have hno : ∀ b ∈ bs, ¬ Mem O b :=
        fun b hb hM => hNoModel b hb ((hInv.models_iff b).mpr hM)
      have hMemEq : ∀ x, Mem (O ++ [(m, bs)]) x ↔ Mem O x := mem_eq_of_no_mem_base hno
      by_cases hu : bs.filter (fun b => decide (b ∉ S.models) && decide (b ∉ S.non_models)) = []
      · rw [if_pos hu]
        refine setIsNotModel_preserves hInv hfresh hMemEq ?_
        have hAllNon : ∀ b ∈ bs, b ∈ S.non_models := by
          intro b hb
          have hnp := List.filter_eq_nil_iff.mp hu b hb
          by_cases hbN : b ∈ S.non_models
          · exact hbN
          · exact absurd (by rw [decide_eq_true (hNoModel b hb), decide_eq_true hbN]; rfl) hnp
        exact NonMem.intro hdm
          (fun b hb h => hno b hb ((hMemEq b).mp h))
          (fun b hb => nonmem_append_one hInv.onodup hfresh
            ((hInv.non_iff b).mp (hAllNon b hb)))
      · rw [if_neg hu]
        exact observe_pending_preserves hInv hfresh rfl hNoModel hu

theorem inv_init : Inv [] initState := by
  refine ⟨List.nodup_nil, List.nodup_nil, ?_, ?_, ?_, ?_, ?_, ?_, ?_, ?_, ?_⟩
  · intro n
    constructor
    · exact fun h => Mem.seed h
    · intro h
      cases h with
      | seed hs => exact hs
      | base hd _ _ => exact absurd hd (List.not_mem_nil _)
  · intro n
    constructor
    · intro h
      exact absurd h (List.not_mem_nil n)
    · intro h
      cases h with
      | intro hd _ _ => exact absurd hd (List.not_mem_nil _)
  · intro n bsx hd
    exact absurd hd (List.not_mem_nil _)
  · intro n e h
    exact Option.noConfusion h
  · intro n e h
    exact Option.noConfusion h
  · intro n e b h
    exact Option.noConfusion h
  · intro b eb x h
    exact Option.noConfusion h
  · intro n e h
    exact Option.noConfusion h
  · intro n e bsx h
    exact Option.noConfusion h

theorem run_inv_go {ds : List Decl} {O : List Decl} {S : VisitorState} (hInv : Inv O S)
    (hnd : ((O ++ ds).map Prod.fst).Nodup) :
    Inv (O ++ ds) (runObservations S ds) := by
  induction ds generalizing O S with
  | nil => simpa using hInv
  | cons d ds ih =>
    obtain ⟨n, bsd⟩ := d
    have hnd2 : (O.map Prod.fst ++ n :: ds.map Prod.fst).Nodup := by
      simpa using hnd
    have hfresh : n ∉ O.map Prod.fst := by
      intro h
      rcases List.nodup_append.mp hnd2 with ⟨_, _, hdisj⟩
      exact hdisj h (List.mem_cons_self _ _)
    have h1 : Inv (O ++ [(n, bsd)]) (observeClass S n bsd) := observe_preserves hInv hfresh
    have h2 := ih h1 (by simp only [List.append_assoc, List.singleton_append]; exact hnd)
    simpa only [List.append_assoc, List.singleton_append] using h2

theorem run_inv {ds : List Decl} (hnd : (ds.map Prod.fst).Nodup) :
    Inv ds (runObservations initState ds) := by
  have h := run_inv_go inv_init (O := []) (by simpa using hnd)
  simpa using h

/-! Case equations for the marker-comment pass of `validator.py`. -/

theorem validatorMarkerPass_of_marker {f : ValidatorFunc}
    (h : (f.leading.any fun line => line = CHECK_LINK_COMMENT) = true) :
    validatorMarkerPass f = f := by
  unfold validatorMarkerPass
  show (if (f.leading.any fun line => line = CHECK_LINK_COMMENT) = true then f
    else if f.needsComment = true then
      { f with leading := f.leading ++ [VALIDATOR_COMMENT, CHECK_LINK_COMMENT] }
    else f) = f
  rw [if_pos h]

theorem validatorMarkerPass_skip {f : ValidatorFunc}
    (h : ¬ (f.leading.any fun line => line = CHECK_LINK_COMMENT) = true)
    (h2 : ¬ f.needsComment = true) :
    validatorMarkerPass f = f := by
  unfold validatorMarkerPass
  show (if (f.leading.any fun line => line = CHECK_LINK_COMMENT) = true then f
    else if f.needsComment = true then
      { f with leading := f.leading ++ [VALIDATOR_COMMENT, CHECK_LINK_COMMENT] }
    else f) = f
  rw [if_neg h, if_neg h2]

theorem validatorMarkerPass_attach {f : ValidatorFunc}
    (h : ¬ (f.leading.any fun line => line = CHECK_LINK_COMMENT) = true)
    (h2 : f.needsComment = true) :
    validatorMarkerPass f =
      { f with leading := f.leading ++ [VALIDATOR_COMMENT, CHECK_LINK_COMMENT] } := by
  unfold validatorMarkerPass
  show (if (f.leading.any fun line => line = CHECK_LINK_COMMENT) = true then f
    else if f.needsComment = true then
      { f with leading := f.leading ++ [VALIDATOR_COMMENT, CHECK_LINK_COMMENT] }
    else f) = _
  rw [if_neg h, if_pos h2]

/-! Path equations for `run_codemods`. -/

theorem run_codemods_parse_error {τ : Type} (parse : String → Except String τ)
    (printT : τ → String) (diffOf : String → String → List String)
    (cms : List (τ → Except String τ)) (diff : Bool) (filename code : String)
    {e : String} (hp : parse code = Except.error e) :
    run_codemods parse printT diffOf cms diff filename code =
      ⟨code, some ("A syntax error happened on " ++ filename ++
        ". This file cannot be formatted.\n" ++ e), none⟩ := by
  unfold run_codemods
  rw [hp]

theorem run_codemods_pipeline_error {τ : Type} (parse : String → Except String τ)
    (printT : τ → String) (diffOf : String → String → List String)
    (cms : List (τ → Except String τ)) (diff : Bool) (filename code : String)
    {t : τ} {e : String} (hp : parse code = Except.ok t)
    (ha : applyCodemods cms t = Except.error e) :
    run_codemods parse printT diffOf cms diff filename code =
      ⟨code, some ("An error happened on " ++ filename ++ ".\n" ++ e), none⟩ := by
  unfold run_codemods
  simp only [hp, ha]

theorem run_codemods_ok {τ : Type} (parse : String → Except String τ)
    (printT : τ → String) (diffOf : String → String → List String)
    (cms : List (τ → Except String τ)) (diff : Bool) (filename code : String)
    {t u : τ} (hp : parse code = Except.ok t) (ha : applyCodemods cms t = Except.ok u) :
    run_codemods parse printT diffOf cms diff filename code =
      (if code ≠ printT u then
        if diff then ⟨code, none, some (diffOf code (printT u))⟩
        else ⟨printT u, none, none⟩
      else ⟨code, none, none⟩ : FileOutcome) := by
  unfold run_codemods
  simp only [hp, ha]

/-- Evaluation of `_setIsNotModel` on a three-entry pending map: `N` with
subclass `X`, `X` still waiting on `N` and `P`, and `P` with subclass `X`.
Marking `N` not-a-model discards `N` from the pending bases of `X` and
stops: `X` keeps its entry with `P` still pending. -/
theorem setIsNotModel_chain_eval :
    setIsNotModel "N" (⟨[], [], [("N", ⟨[], ["X"]⟩), ("X", ⟨["N", "P"], []⟩),
        ("P", ⟨[], ["X"]⟩)]⟩ : VisitorState) =
      ⟨[], ["N"], [("X", ⟨["P"], []⟩), ("P", ⟨[], ["X"]⟩)]⟩ := by
  show setIsNotModelGo
      (⟨[], ["N"], [("X", ⟨["N", "P"], []⟩), ("P", ⟨[], ["X"]⟩)]⟩ : VisitorState)
      [("N", ["X"])] = _
  have h1 : setIsNotModelGo
      (⟨[], ["N"], [("X", ⟨["N", "P"], []⟩), ("P", ⟨[], ["X"]⟩)]⟩ : VisitorState)
      [("N", ["X"])] =
      setIsNotModelGo
      (⟨[], ["N"], [("X", ⟨["P"], []⟩), ("P", ⟨[], ["X"]⟩)]⟩ : VisitorState)
      [("N", [])] :=
    setIsNotModelGo_upd
      (show lookupP "X"
          ((⟨[], ["N"], [("X", ⟨["N", "P"], []⟩), ("P", ⟨[], ["X"]⟩)]⟩ :
            VisitorState)).pending = some ⟨["N", "P"], []⟩ from rfl)
      (by decide)
  rw [h1, setIsNotModelGo_done, setIsNotModelGo_nil]

/-- C1: Order-independence of the resolution fixpoint.  For a fixed finite
set of class declarations (each name declared once, with its resolved base
names), observing every declaration exactly once through `visit_ClassDef`
(`observeClass`) yields the same `known_members` (`models`) and
`known_non_members` (`non_models`) sets — membership is identical — for
every permutation of the observation order. -/
theorem resolution_order_independent {D E : List Decl} (hperm : D.Perm E)
    (hnd : (D.map Prod.fst).Nodup) :
    (∀ n, n ∈ (runObservations initState D).models ↔
        n ∈ (runObservations initState E).models) ∧
    (∀ n, n ∈ (runObservations initState D).non_models ↔
        n ∈ (runObservations initState E).non_models) := by
  have hndE : (E.map Prod.fst).Nodup := ((hperm.map Prod.fst).nodup_iff).mp hnd
  have hI1 := run_inv hnd
  have hI2 := run_inv hndE
  have hmm : ∀ p : Decl, p ∈ D ↔ p ∈ E := fun p => hperm.mem_iff
  constructor
  · intro n
    rw [hI1.models_iff n, hI2.models_iff n]
    exact mem_iff_of_mem_iff hmm n
  · intro n
    rw [hI1.non_iff n, hI2.non_iff n]
    exact nonmem_iff_of_mem_iff hmm n

/-- C1 witness: the two-element declaration list observed in both orders. -/
theorem resolution_order_independent_witness :
    (∀ n, n ∈ (runObservations initState
        [("m.A", ["pydantic.BaseModel"]), ("m.B", ["m.A"])]).models ↔
      n ∈ (runObservations initState
        [("m.B", ["m.A"]), ("m.A", ["pydantic.BaseModel"])]).models) ∧
    (∀ n, n ∈ (runObservations initState
        [("m.A", ["pydantic.BaseModel"]), ("m.B", ["m.A"])]).non_models ↔
      n ∈ (runObservations initState
        [("m.B", ["m.A"]), ("m.A", ["pydantic.BaseModel"])]).non_models) :=
  resolution_order_independent (by decide) (by decide)

/-- C2: Transitive, unconditional member promotion.  In a state whose pending
map has duplicate-free keys, is coupled (every pending base of an entry is
itself a key whose entry lists the dependent as a subclass — as
`visit_ClassDef` always arranges) and whose keys are not already members,
`_setIsModel root` marks every class that waits on `root` through a chain of
`pending_bases` edges (`PbReach`) as a known member — regardless of any other
unresolved bases of those classes, with no further observe call. -/
theorem member_promotion_transitive {S : VisitorState} {root x : String}
    (hnd : (S.pending.map Prod.fst).Nodup)
    (hcoup : ∀ p ∈ S.pending, ∀ b ∈ p.2.pending_bases,
      ∃ q ∈ S.pending, q.1 = b ∧ p.1 ∈ q.2.subclasses)
    (hdisj : ∀ p ∈ S.pending, p.1 ∉ S.models)
    (hreach : PbReach S root x) :
    x ∈ (setIsModel root S).models := by
  unfold setIsModel
  induction hreach with
  | refl => exact setIsModelGo_stack_marked _ _ root (List.mem_cons_self _ _)
  | @step k n e hRk hne hkpb ih =>
    have hmem : (n, e) ∈ S.pending := lookupP_mem hne
    rcases hcoup (n, e) hmem k hkpb with ⟨⟨qk, qe⟩, hq, hq1, hnq⟩
    have hq1' : k = qk := hq1.symm
    subst hq1'
    have hlookk : lookupP k S.pending = some qe := lookupP_of_mem hnd hq
    have hknotS : k ∉ S.models := hdisj (k, qe) hq
    exact setIsModelGo_new_marked_subs S [root] hnd k qe ih hknotS hlookk n hnq

/-- C2 witness: `Bar` was observed before `Foo` resolved and waits on `Foo`
(and also on `Other`); marking `Foo` a member promotes `Bar` too. -/
theorem member_promotion_transitive_witness :
    "Bar" ∈ (setIsModel "Foo"
      (⟨["pydantic.BaseModel", "pydantic.main.BaseModel"], [],
        [("Foo", ⟨[], ["Bar"]⟩), ("Bar", ⟨["Foo", "Other"], []⟩),
         ("Other", ⟨[], ["Bar"]⟩)]⟩ : VisitorState)).models :=
  member_promotion_transitive (by decide) (by decide) (by decide)
    (PbReach.step PbReach.refl
      (show lookupP "Bar"
          ((⟨["pydantic.BaseModel", "pydantic.main.BaseModel"], [],
            [("Foo", ⟨[], ["Bar"]⟩), ("Bar", ⟨["Foo", "Other"], []⟩),
             ("Other", ⟨[], ["Bar"]⟩)]⟩ : VisitorState)).pending =
          some ⟨["Foo", "Other"], []⟩ from rfl)
      (by decide))

/-- C3: Unanimous non-membership.  `_setIsNotModel p` marks `p`; a pending
dependent `x` of the call is marked non-member only when its pending bases
are exhausted: if `x` is newly marked then every base of its entry ended in
`non_models`, and conversely a dependent with a base not resolved
non-model by the call stays out of `non_models` and keeps a pending entry
whose bases are among its old ones; `p` itself is discarded from the pending
bases of every surviving direct subclass entry; `models` is untouched. -/
theorem set_not_model_requires_unanimity {S : VisitorState} {p : String}
    (hnd : (S.pending.map Prod.fst).Nodup) :
    p ∈ (setIsNotModel p S).non_models ∧
    (∀ x ex, lookupP x S.pending = some ex → x ≠ p → x ∉ S.non_models →
      x ∈ (setIsNotModel p S).non_models →
      ∀ b ∈ ex.pending_bases, b ∈ (setIsNotModel p S).non_models) ∧
    (∀ x ex, lookupP x S.pending = some ex → x ≠ p → x ∉ S.non_models →
      (∃ b ∈ ex.pending_bases, b ∉ (setIsNotModel p S).non_models) →
      x ∉ (setIsNotModel p S).non_models ∧
      ∃ e2, lookupP x (setIsNotModel p S).pending = some e2 ∧
        ∀ b ∈ e2.pending_bases, b ∈ ex.pending_bases) ∧
    (∀ ep, lookupP p S.pending = some ep → ∀ x ∈ ep.subclasses, ∀ e2,
      lookupP x (setIsNotModel p S).pending = some e2 → p ∉ e2.pending_bases) ∧
    (setIsNotModel p S).models = S.models := by
  unfold setIsNotModel
  cases hpS : lookupP p S.pending with
  | none =>
    refine ⟨mem_addS_self, ?_, ?_, ?_, rfl⟩
    · intro x ex hx hxp hxS hxR b hb
      rcases mem_addS.mp hxR with rfl | h
      · exact absurd rfl hxp
      · exact absurd h hxS
    · intro x ex hx hxp hxS hex
      refine ⟨?_, ex, hx, fun b hb => hb⟩
      intro hxR
      rcases mem_addS.mp hxR with rfl | h
      · exact hxp rfl
      · exact hxS h
    · intro ep hep
      exact Option.noConfusion hep
  | some e =>
    have hnd2 : ((eraseP p S.pending).map Prod.fst).Nodup := eraseP_keys_nodup hnd
    have hframe : ∀ q l, (q, l) ∈ [(p, e.subclasses)] →
        q ∈ ((⟨S.models, addS p S.non_models, eraseP p S.pending⟩ :
          VisitorState)).non_models := by
      intro q l hql
      cases List.mem_singleton.mp hql
      exact mem_addS_self
    refine ⟨?_, ?_, ?_, ?_, ?_⟩
    · exact setIsNotModelGo_non_super
        (⟨S.models, addS p S.non_models, eraseP p S.pending⟩ : VisitorState)
        [(p, e.subclasses)] p mem_addS_self
    · intro x ex hx hxp hxS hxR b hb
      have hx2 : lookupP x (eraseP p S.pending) = some ex := by
        rw [lookupP_eraseP_ne hxp]; exact hx
      rcases setIsNotModelGo_mark_exhausts
          (⟨S.models, addS p S.non_models, eraseP p S.pending⟩ : VisitorState)
          [(p, e.subclasses)] hframe x ex hx2 hxR with h1 | h2
      · rcases mem_addS.mp h1 with rfl | h1
        · exact absurd rfl hxp
        · exact absurd h1 hxS
      · exact h2 b hb
    · intro x ex hx hxp hxS hex
      have hx2 : lookupP x (eraseP p S.pending) = some ex := by
        rw [lookupP_eraseP_ne hxp]; exact hx
      have hxnot : x ∉ (setIsNotModelGo
          (⟨S.models, addS p S.non_models, eraseP p S.pending⟩ : VisitorState)
          [(p, e.subclasses)]).non_models := by
        intro hxR
        rcases setIsNotModelGo_mark_exhausts
            (⟨S.models, addS p S.non_models, eraseP p S.pending⟩ : VisitorState)
            [(p, e.subclasses)] hframe x ex hx2 hxR with h1 | h2
        · rcases mem_addS.mp h1 with rfl | h1
          · exact hxp rfl
          · exact hxS h1
        · rcases hex with ⟨b, hb, hbn⟩
          exact hbn (h2 b hb)
      refine ⟨hxnot, ?_⟩
      cases hR : lookupP x (setIsNotModelGo
          (⟨S.models, addS p S.non_models, eraseP p S.pending⟩ : VisitorState)
          [(p, e.subclasses)]).pending with
      | none =>
        have hsome : (lookupP x (eraseP p S.pending)).isSome = true := by
          rw [hx2]
          rfl
        exact absurd (setIsNotModelGo_popped_marked
          (⟨S.models, addS p S.non_models, eraseP p S.pending⟩ : VisitorState)
          [(p, e.subclasses)] x hsome hR) hxnot
      | some e2 =>
        rcases setIsNotModelGo_coupling
            (⟨S.models, addS p S.non_models, eraseP p S.pending⟩ : VisitorState)
            [(p, e.subclasses)] hnd2 hframe x e2 hR with ⟨e3, hlook3, _, hpb, _⟩
        have h4 : some ex = some e3 := hx2.symm.trans hlook3
        injection h4 with h4
        subst h4
        exact ⟨e2, rfl, hpb⟩
    · intro ep hep x hxsub e2 hlook
      injection hep with hep
      subst hep
      exact setIsNotModelGo_frame_discard
        (⟨S.models, addS p S.non_models, eraseP p S.pending⟩ : VisitorState)
        [(p, e.subclasses)] hnd2 hframe p e.subclasses
        (List.mem_singleton.mpr rfl) x hxsub e2 hlook
    · exact setIsNotModelGo_models
        (⟨S.models, addS p S.non_models, eraseP p S.pending⟩ : VisitorState)
        [(p, e.subclasses)]

/-- C3 witness: the class `X` with bases `[N, P]`, where `N` is marked
not-a-model and `P` is still pending, stays out of `non_models` and keeps a
pending entry whose bases come from its old ones. -/
theorem set_not_model_requires_unanimity_witness :
    "X" ∉ (setIsNotModel "N" (⟨[], [], [("N", ⟨[], ["X"]⟩),
        ("X", ⟨["N", "P"], []⟩), ("P", ⟨[], ["X"]⟩)]⟩ : VisitorState)).non_models ∧
    ∃ e2, lookupP "X" (setIsNotModel "N" (⟨[], [], [("N", ⟨[], ["X"]⟩),
        ("X", ⟨["N", "P"], []⟩), ("P", ⟨[], ["X"]⟩)]⟩ : VisitorState)).pending =
        some e2 ∧
      ∀ b ∈ e2.pending_bases, b ∈ (⟨["N", "P"], []⟩ : PendingClass).pending_bases :=
  (set_not_model_requires_unanimity (by decide)).2.2.1 "X" ⟨["N", "P"], []⟩ rfl
    (by decide) (by decide)
    ⟨"P", by decide, by rw [setIsNotModel_chain_eval]; decide⟩

/-- C4: Single-base sufficiency of membership.  A class observed with a
non-empty base list that contains at least one name already known as a
member — at any position — is marked a known member by `visit_ClassDef`. -/
theorem member_base_immediate {S : VisitorState} {n : String} {bs : List String}
    (hbs : bs ≠ []) (hmem : ∃ b ∈ bs, b ∈ S.models) :
    n ∈ (observeClass S n bs).models := by
  unfold observeClass
  rw [if_neg hbs]
  show n ∈ (if bs.any (fun b => decide (b ∈ S.models)) = true then setIsModel n S
    else _).models
  rcases hmem with ⟨b, hb, hbM⟩
  rw [if_pos (List.any_eq_true.mpr ⟨b, hb, decide_eq_true hbM⟩)]
  exact setIsModelGo_stack_marked _ _ n (List.mem_cons_self _ _)

/-- C4 witness: the member base stands second in the base list. -/
theorem member_base_immediate_witness :
    "m.M" ∈ (observeClass initState "m.M"
      ["x.NotModel", "pydantic.BaseModel"]).models :=
  member_base_immediate (by decide)
    ⟨"pydantic.BaseModel", by decide, by decide⟩

/-- C5 counterexample: the disjointness invariant fails as stated.  The class
name `pydantic.BaseModel` is seeded into `known_members`, yet observing a
declaration for that very name with no bases (as `visit_ClassDef` would on a
redeclaration) puts it into `known_non_members` as well, so `models` and
`non_models` intersect after an `observe_class` call even though no
fully-qualified name was observed twice. -/
theorem seed_redeclaration_breaks_disjointness :
    "pydantic.BaseModel" ∈
      (observeClass initState "pydantic.BaseModel" []).models ∧
    "pydantic.BaseModel" ∈
      (observeClass initState "pydantic.BaseModel" []).non_models := by
  constructor
  · decide
  · decide

/-- C5 (amended): under the additional precondition that no observed
declaration redeclares one of the two seeded root names, the sets `models`,
`non_models` and the key set of `pending` (placeholder entries included) are
pairwise disjoint after every prefix of the observation sequence. -/
theorem resolver_sets_pairwise_disjoint {ds : List Decl}
    (hnd : (ds.map Prod.fst).Nodup)
    (hseed : ∀ p ∈ ds, p.1 ∉ seedList) :
    ∀ P Q, ds = P ++ Q →
      (∀ n, ¬ (n ∈ (runObservations initState P).models ∧
          n ∈ (runObservations initState P).non_models)) ∧
      (∀ n, ¬ (n ∈ (runObservations initState P).models ∧
          n ∈ (runObservations initState P).pending.map Prod.fst)) ∧
      (∀ n, ¬ (n ∈ (runObservations initState P).non_models ∧
          n ∈ (runObservations initState P).pending.map Prod.fst)) := by
  intro P Q hPQ
  subst hPQ
  have hndP : (P.map Prod.fst).Nodup := by
    rw [List.map_append] at hnd
    exact (List.nodup_append.mp hnd).1
  have hI := run_inv hndP
  have hseedP : ∀ p ∈ P, p.1 ∉ seedList :=
    fun p hp => hseed p (List.mem_append_left _ hp)
  refine ⟨?_, ?_, ?_⟩
  · rintro n ⟨h1, h2⟩
    have hM := (hI.models_iff n).mp h1
    have hN := (hI.non_iff n).mp h2
    have hs := mem_nonmem_seed hndP hM hN
    rcases List.mem_map.mp (nonmem_declared hN) with ⟨q, hq, hq1⟩
    exact hseedP q hq (hq1 ▸ hs)
  · rintro n ⟨h1, h2⟩
    rcases List.mem_map.mp h2 with ⟨⟨n1, e⟩, hpe, rfl⟩
    have hlook := lookupP_of_mem hI.knodup hpe
    have hM := (hI.models_iff _).mp h1
    have hs := inv_key_mem_seed hI hlook hM
    rcases hI.key_decl_or_not_mem _ _ hlook with hdecl | hnM
    · rcases List.mem_map.mp hdecl with ⟨q, hq, hq1⟩
      exact hseedP q hq (hq1 ▸ hs)
    · exact hnM hM
  · rintro n ⟨h1, h2⟩
    rcases List.mem_map.mp h2 with ⟨⟨n1, e⟩, hpe, rfl⟩
    have hlook := lookupP_of_mem hI.knodup hpe
    exact inv_key_not_non hI hlook ((hI.non_iff _).mp h1)

/-- C5 witness for the amended claim: one user class subclassing the seeded
root, with the full list as the prefix. -/
theorem resolver_sets_pairwise_disjoint_witness :
    (∀ n, ¬ (n ∈ (runObservations initState
          [("m.A", ["pydantic.BaseModel"])]).models ∧
        n ∈ (runObservations initState
          [("m.A", ["pydantic.BaseModel"])]).non_models)) ∧
    (∀ n, ¬ (n ∈ (runObservations initState
          [("m.A", ["pydantic.BaseModel"])]).models ∧
        n ∈ (runObservations initState
          [("m.A", ["pydantic.BaseModel"])]).pending.map Prod.fst)) ∧
    (∀ n, ¬ (n ∈ (runObservations initState
          [("m.A", ["pydantic.BaseModel"])]).non_models ∧
        n ∈ (runObservations initState
          [("m.A", ["pydantic.BaseModel"])]).pending.map Prod.fst)) :=
  resolver_sets_pairwise_disjoint (by decide) (by decide)
    [("m.A", ["pydantic.BaseModel"])] [] rfl

/-- C6: Cycle inertness.  For a declaration list `D` (each name declared
once) and a set `CY` of class names, none of them a seeded root, where every
member of `CY` is declared in `D` with no base resolving to a known member
and at least one base inside `CY`, after the whole of `D` is observed every
member of `CY` is still a key of `pending` and is in neither
`known_members` nor `known_non_members`; since `D` may extend the cycle
declarations by any later observations that leave the cycle bases
unresolved, no such later operation resolves the cycle either. -/
theorem cycle_inert {D : List Decl} {CY : List String}
    (hnd : (D.map Prod.fst).Nodup)
    (hseed : ∀ c ∈ CY, c ∉ seedList)
    (hcy : ∀ c ∈ CY, ∃ p ∈ D, p.1 = c ∧
      (∀ b ∈ p.2, b ∉ (runObservations initState D).models) ∧
      (∃ b ∈ p.2, b ∈ CY)) :
    ∀ c ∈ CY, c ∈ (runObservations initState D).pending.map Prod.fst ∧
      c ∉ (runObservations initState D).models ∧
      c ∉ (runObservations initState D).non_models := by
  have hI := run_inv hnd
  have hcy2 : ∀ c ∈ CY, ∃ bs, (c, bs) ∈ D ∧ (∀ b ∈ bs, ¬ Mem D b) ∧
      (∃ b ∈ bs, b ∈ CY) := by
    intro c hc
    rcases hcy c hc with ⟨⟨c1, bs⟩, hpD, hc1, hnb, hbc⟩
    have hc2 : c1 = c := hc1
    subst hc2
    exact ⟨bs, hpD, fun b hb hM => hnb b hb ((hI.models_iff b).mpr hM), hbc⟩
  have hnotMem : ∀ c ∈ CY, ¬ Mem D c := by
    intro c hc hM
    cases hM with
    | seed hs => exact hseed c hc hs
    | @base _ bs2 b hdc hb hMb =>
      rcases hcy2 c hc with ⟨bs, hd, hnb, _⟩
      have hbs : bs2 = bs := decl_unique hnd hdc hd
      subst hbs
      exact hnb b hb hMb
  have hnotNon : ∀ x, NonMem D x → x ∉ CY := by
    intro x hx
    induction hx with
    | @intro n bsn hdn hnm hnon ih =>
      intro hn
      rcases hcy2 n hn with ⟨bs, hd, _, b, hb, hbCY⟩
      have hbs : bsn = bs := decl_unique hnd hdn hd
      subst hbs
      exact ih b hb hbCY
  intro c hc
  rcases hcy2 c hc with ⟨bs, hd, hnb, _⟩
  have hnN : ¬ NonMem D c := fun h => hnotNon c h hc
  have hkey := hI.key_complete c bs hd hnN hnb
  refine ⟨?_, ?_, ?_⟩
  · rcases Option.isSome_iff_exists.mp hkey with ⟨e, he⟩
    exact List.mem_map.mpr ⟨(c, e), lookupP_mem he, rfl⟩
  · exact fun h => hnotMem c hc ((hI.models_iff c).mp h)
  · exact fun h => hnN ((hI.non_iff c).mp h)

/-- C6 witness: a two-class mutual cycle with no external base. -/
theorem cycle_inert_witness :
    "mod.A" ∈ (runObservations initState
      [("mod.A", ["mod.B"]), ("mod.B", ["mod.A"])]).pending.map Prod.fst ∧
    "mod.A" ∉ (runObservations initState
      [("mod.A", ["mod.B"]), ("mod.B", ["mod.A"])]).models ∧
    "mod.A" ∉ (runObservations initState
      [("mod.A", ["mod.B"]), ("mod.B", ["mod.A"])]).non_models :=
  @cycle_inert [("mod.A", ["mod.B"]), ("mod.B", ["mod.A"])] ["mod.A", "mod.B"]
    (by decide) (by decide) (by decide) "mod.A" (by decide)

/-- C7 counterexample: `leave_old_model_method` of
`warn_replaced_overrides.py` appends the refactor comment lines without
checking whether they are already present, so a second run over its own
output (here: an overridden `dict` with no leading comments, guards passing)
duplicates the marker and changes the output again. -/
theorem warn_overrides_pass_not_idempotent :
    leave_old_model_method true (leave_old_model_method true ⟨[], "dict"⟩) ≠
      leave_old_model_method true ⟨[], "dict"⟩ := by
  decide

/-- C7 (amended): the marker-comment logic of `validator.py` is idempotent:
`visit_validator_func` recognizes an existing `CHECK_LINK_COMMENT` among the
leading lines and `leave_validator_decorator` then leaves the node
unchanged, so a second run over any output of the pass returns it
identically.  The claim holds for this pass but not for every marker
comment pass (see the counterexample). -/
theorem validator_marker_pass_idempotent (f : ValidatorFunc) :
    validatorMarkerPass (validatorMarkerPass f) = validatorMarkerPass f := by
  by_cases h1 : (f.leading.any fun line => line = CHECK_LINK_COMMENT) = true
  · rw [validatorMarkerPass_of_marker h1]
    exact validatorMarkerPass_of_marker h1
  · by_cases h2 : f.needsComment = true
    · rw [validatorMarkerPass_attach h1 h2]
      refine validatorMarkerPass_of_marker ?_
      show ((f.leading ++ [VALIDATOR_COMMENT, CHECK_LINK_COMMENT]).any
        fun line => line = CHECK_LINK_COMMENT) = true
      rw [List.any_append]
      have hr : ([VALIDATOR_COMMENT, CHECK_LINK_COMMENT].any
          fun line => line = CHECK_LINK_COMMENT) = true := by decide
      rw [hr, Bool.or_true]
    · rw [validatorMarkerPass_skip h1 h2]
      exact validatorMarkerPass_skip h1 h2

/-- C8 counterexample: in apply mode (`diff = false`) a file whose
post-rewrite content differs from its input is written back with no diff
lines recorded, and `main` raises `Exit(1)` only when diff lines were
collected — so the process exits 0 although a net diff was produced. -/
theorem exit_code_misses_apply_mode :
    mainExitCode [run_codemods (fun s => Except.ok s) (fun s => s ++ "!")
      (fun a b => [a, b]) [] false "f.py" "code"] = 0 ∧
    (run_codemods (fun s => (Except.ok s : Except String String))
      (fun s => s ++ "!") (fun a b => [a, b]) [] false "f.py" "code").content ≠
      "code" := by
  constructor
  · decide
  · decide

/-- C8 (amended): the exit code reflects the collected diff line lists, and
those arise in diff-only mode exactly when the pipeline succeeded with a net
change; in apply mode `run_codemods` never returns diff lines, so the exit
code is 0 there regardless of net diffs. -/
theorem exit_code_tracks_diff_collection {τ : Type}
    (parse : String → Except String τ) (printT : τ → String)
    (diffOf : String → String → List String)
    (cms : List (τ → Except String τ)) (filename code : String)
    (rs : List FileOutcome) :
    (mainExitCode rs = 1 ↔ collectDiffs rs ≠ []) ∧
    (run_codemods parse printT diffOf cms false filename code).diffLines =
      none ∧
    ((run_codemods parse printT diffOf cms true filename code).diffLines ≠
        none ↔
      ∃ t, parse code = Except.ok t ∧ ∃ u, applyCodemods cms t = Except.ok u ∧
        code ≠ printT u) := by
  refine ⟨?_, ?_, ?_⟩
  · unfold mainExitCode
    by_cases h : collectDiffs rs = []
    · simp [h]
    · simp [h]
  · cases hp : parse code with
    | error e => rw [run_codemods_parse_error parse printT diffOf cms false filename code hp]
    | ok t =>
      cases ha : applyCodemods cms t with
      | error e =>
        rw [run_codemods_pipeline_error parse printT diffOf cms false filename code hp ha]
      | ok u =>
        rw [run_codemods_ok parse printT diffOf cms false filename code hp ha]
        by_cases hc : code ≠ printT u
        · rw [if_pos hc]
          rfl
        · rw [if_neg hc]
  · cases hp : parse code with
    | error e =>
      rw [run_codemods_parse_error parse printT diffOf cms true filename code hp]
      constructor
      · intro h
        exact absurd rfl h
      · rintro ⟨t, ht, _⟩
        exact Except.noConfusion ht
    | ok t =>
      cases ha : applyCodemods cms t with
      | error e =>
        rw [run_codemods_pipeline_error parse printT diffOf cms true filename code hp ha]
        constructor
        · intro h
          exact absurd rfl h
        · rintro ⟨t2, ht, u, hu, _⟩
          injection ht with ht
          subst ht
          exact Except.noConfusion (ha.symm.trans hu)
      | ok u =>
        rw [run_codemods_ok parse printT diffOf cms true filename code hp ha]
        by_cases hc : code ≠ printT u
        · rw [if_pos hc]
          constructor
          · intro _
            exact ⟨t, rfl, u, ha, hc⟩
          · intro _ hcon
            exact Option.noConfusion hcon
        · rw [if_neg hc]
          constructor
          · intro h
            exact absurd rfl h
          · rintro ⟨t2, ht, u2, hu, hne⟩
            injection ht with ht
            subst ht
            have h3 : Except.ok u = Except.ok u2 := ha.symm.trans hu
            injection h3 with h3
            subst h3
            exact absurd hne hc

/-- C8 witness for the amended claim: a one-file batch whose pipeline is the
identity, in both modes. -/
theorem exit_code_tracks_diff_collection_witness :
    (mainExitCode ([] : List FileOutcome) = 1 ↔
      collectDiffs ([] : List FileOutcome) ≠ []) ∧
    (run_codemods (fun s => (Except.ok s : Except String String))
      (fun s => s ++ "!") (fun a b => [a, b]) [] false "f.py" "code").diffLines =
      none ∧
    ((run_codemods (fun s => (Except.ok s : Except String String))
        (fun s => s ++ "!") (fun a b => [a, b]) [] true "f.py" "code").diffLines ≠
        none ↔
      ∃ t, (fun s => (Except.ok s : Except String String)) "code" =
          Except.ok t ∧
        ∃ u, applyCodemods [] t = Except.ok u ∧ "code" ≠ (fun s => s ++ "!") u) :=
  exit_code_tracks_diff_collection (fun s => (Except.ok s : Except String String))
    (fun s => s ++ "!") (fun a b => [a, b]) [] "f.py" "code" []

/-- C9: Per-file failure atomicity of `run_codemods`.  On a parse error, and
likewise when any codemod of the pipeline raises, the returned content is
exactly the input content, an error string is returned and no diff lines
are; and whenever the returned content differs from the input, the whole
pipeline succeeded, the run was in apply mode, the content is the full
printed output tree and no error is reported — a file is only ever written
in full after the pipeline for it succeeds. -/
theorem per_file_failure_atomic {τ : Type} (parse : String → Except String τ)
    (printT : τ → String) (diffOf : String → String → List String)
    (cms : List (τ → Except String τ)) (diff : Bool) (filename code : String) :
    (∀ e, parse code = Except.error e →
      run_codemods parse printT diffOf cms diff filename code =
        ⟨code, some ("A syntax error happened on " ++ filename ++
          ". This file cannot be formatted.\n" ++ e), none⟩) ∧
    (∀ t e, parse code = Except.ok t → applyCodemods cms t = Except.error e →
      run_codemods parse printT diffOf cms diff filename code =
        ⟨code, some ("An error happened on " ++ filename ++ ".\n" ++ e),
          none⟩) ∧
    ((run_codemods parse printT diffOf cms diff filename code).content ≠ code →
      ∃ t u, parse code = Except.ok t ∧ applyCodemods cms t = Except.ok u ∧
        diff = false ∧
        (run_codemods parse printT diffOf cms diff filename code).content =
          printT u ∧
        (run_codemods parse printT diffOf cms diff filename code).errorMsg =
          none) := by
  refine ⟨?_, ?_, ?_⟩
  · intro e hp
    exact run_codemods_parse_error parse printT diffOf cms diff filename code hp
  · intro t e hp ha
    exact run_codemods_pipeline_error parse printT diffOf cms diff filename code hp ha
  · intro hne
    cases hp : parse code with
    | error e =>
      rw [run_codemods_parse_error parse printT diffOf cms diff filename code hp] at hne
      exact absurd rfl hne
    | ok t =>
      cases ha : applyCodemods cms t with
      | error e =>
        rw [run_codemods_pipeline_error parse printT diffOf cms diff filename code hp ha]
          at hne
        exact absurd rfl hne
      | ok u =>
        rw [run_codemods_ok parse printT diffOf cms diff filename code hp ha] at hne
        by_cases hc : code ≠ printT u
        · rw [if_pos hc] at hne
          cases diff with
          | true =>
            exact absurd rfl hne
          | false =>
            refine ⟨t, u, rfl, ha, rfl, ?_, ?_⟩
            · rw [run_codemods_ok parse printT diffOf cms false filename code hp ha,
                if_pos hc]
              rfl
            · rw [run_codemods_ok parse printT diffOf cms false filename code hp ha,
                if_pos hc]
              rfl
        · rw [if_neg hc] at hne
          exact absurd rfl hne

/-- C9 witness: a file whose parse fails is left at its original content,
with the error message returned and no diff. -/
theorem per_file_failure_atomic_witness :
    run_codemods (fun _ => (Except.error "boom" : Except String String))
        (fun s => s) (fun a b => [a, b]) [] true "f.py" "code" =
      ⟨"code", some ("A syntax error happened on " ++ "f.py" ++
        ". This file cannot be formatted.\n" ++ "boom"), none⟩ :=
  (per_file_failure_atomic (fun _ => (Except.error "boom" : Except String String))
    (fun s => s) (fun a b => [a, b]) [] true "f.py" "code").1 "boom" rfl

/-- C10: Observing a class definition whose fully-qualified-name metadata
set is empty is a complete no-op on the resolver state: `visit_ClassDef`
returns before touching `models`, `non_models` or `pending`, so the state
is exactly as before, with no placeholder entries created for any base. -/
theorem empty_fqn_set_noop (S : VisitorState) (bs : List String) :
    visitClassDef S [] bs = S := rfl

end BumpPydantic
